import Mathlib

/-!
# Verification of the vaultsmith reconciliation engine

Shallow embedding of the vaultsmith sources:
  * `path_handlers/sys_auth.go`   (SysAuth handler)
  * `path_handlers/sys_policy.go` (SysPolicyHandler)
  * `internal/configWalker.go`    (ConfigWalker / dispatcher)

Go strings are modelled as Lean `String` (operated on through their
character list, so that everything is kernel-computable); Go maps are
modelled as association lists with distinct keys; the Vault client
interface (`vault.Vault`) is modelled as a record of response functions
parametric in an abstract remote-state type, so that both an "honest"
remote service and a failing one can be instantiated.  Remote mutating
calls (EnableAuth / DisableAuth / PutPolicy / DeletePolicy) are traced
explicitly; read calls (GetPolicy, ListAuth, ListPolicies) are not part
of the mutating-call trace.
-/

/-! ## String helpers (character-list based, faithful to Go's `strings` and
`path/filepath` behaviour on slash-separated paths) -/

def listPrefixOf (p s : List Char) : Bool :=
  match p, s with
  | [], _ => true
  | _, [] => false
  | a :: p', b :: s' => a == b && listPrefixOf p' s'

/-- Go `strings.HasPrefix s pre`. -/
def strHasPrefix (s pre : String) : Bool := listPrefixOf pre.toList s.toList

/-- Go `strings.TrimPrefix s pre`: drops `pre` when it is a prefix, else
returns `s` unchanged. -/
def strTrimPrefix (s pre : String) : String :=
  if strHasPrefix s pre then ⟨s.toList.drop pre.toList.length⟩ else s

def baseNameAux : List Char → List Char → List Char
  | [], acc => acc.reverse
  | c :: rest, acc => if c == '/' then baseNameAux rest [] else baseNameAux rest (c :: acc)

/-- The `file` component of Go `filepath.Split path`: everything after the
last path separator. -/
def baseName (path : String) : String := ⟨baseNameAux path.toList []⟩

/-- Split a slash-separated path into its components
(Go `strings.Split path "/"` on a non-empty separator). -/
def splitSlash (s : String) : List String :=
  go s.toList [] |>.map fun l => ⟨l⟩
where
  go : List Char → List Char → List (List Char)
    | [], acc => [acc.reverse]
    | c :: rest, acc =>
      if c == '/' then acc.reverse :: go rest [] else go rest (c :: acc)

/-- Go `strings.Join parts "/"`. -/
def joinSlash (parts : List String) : String :=
  match parts with
  | [] => ""
  | p :: rest => rest.foldl (fun acc q => acc ++ "/" ++ q) p

/-! ## Association-list maps (model of Go maps: distinct keys; insertion
replaces an existing binding in place, otherwise appends) -/

def lookupKey {α : Type} (k : String) : List (String × α) → Option α
  | [] => none
  | (k', v) :: rest => if k' == k then some v else lookupKey k rest

def insertKey {α : Type} (k : String) (v : α) : List (String × α) → List (String × α)
  | [] => [(k, v)]
  | (k', v') :: rest => if k' == k then (k, v) :: rest else (k', v') :: insertKey k v rest

def eraseKey {α : Type} (k : String) : List (String × α) → List (String × α)
  | [] => []
  | (k', v') :: rest => if k' == k then eraseKey k rest else (k', v') :: eraseKey k rest

/-! ## Go `time.ParseDuration`

Model of the Go standard library's duration parser (`time/format.go`,
int64 version contemporary with the repository), on which
`ConvertAuthConfig` relies.  Durations are counted in integer nanoseconds;
the int64 overflow checks of the Go code appear as explicit comparisons
with `2^63`.  The fractional-part contribution, a float64 product in Go,
is modelled by exact integer arithmetic truncated toward zero. -/

def maxI64 : Nat := 2 ^ 63 - 1

/-- Go `unitMap`: nanoseconds per duration unit. -/
def unitNanos (u : String) : Option Nat :=
  if u == "ns" then some 1
  else if u == "us" then some 1000
  else if u == "µs" then some 1000
  else if u == "μs" then some 1000
  else if u == "ms" then some 1000000
  else if u == "s" then some 1000000000
  else if u == "m" then some 60000000000
  else if u == "h" then some 3600000000000
  else none

/-- Go `leadingInt`: consume leading decimal digits; `none` on int64
overflow. -/
def leadingIntGo (x : Nat) : List Char → Option (Nat × List Char)
  | [] => some (x, [])
  | c :: rest =>
    if c.isDigit then
      if x > maxI64 / 10 then none
      else
        let y := x * 10 + (c.toNat - '0'.toNat)
        if y > maxI64 then none
        else leadingIntGo y rest
    else some (x, c :: rest)

/-- Go `leadingFraction`: consume digits after the decimal point, returning
the accumulated value and the scale; stops accumulating (but keeps
consuming) on overflow. -/
def leadingFractionGo (x scale : Nat) (overflow : Bool) : List Char → (Nat × Nat × List Char)
  | [] => (x, scale, [])
  | c :: rest =>
    if c.isDigit then
      if overflow then leadingFractionGo x scale overflow rest
      else if x > maxI64 / 10 then leadingFractionGo x scale true rest
      else
        let y := x * 10 + (c.toNat - '0'.toNat)
        if y > maxI64 then leadingFractionGo x scale true rest
        else leadingFractionGo y (scale * 10) overflow rest
    else (x, scale, c :: rest)

/-- Length of the unit token: leading characters that are neither a digit
nor a decimal point. -/
def unitLen : List Char → Nat
  | [] => 0
  | c :: rest => if c == '.' || c.isDigit then 0 else unitLen rest + 1

/-- One iteration of Go `ParseDuration`'s main loop, with fuel (each
iteration consumes at least one character, so `length + 1` fuel always
suffices). Accumulator `d` is the duration in nanoseconds so far. -/
def parseDurationLoop : Nat → Nat → List Char → Except String Nat
  | 0, _, _ => .error "time: invalid duration"
  | _ + 1, d, [] => .ok d
  | fuel + 1, d, c :: s' =>
    if !(c == '.' || c.isDigit) then .error "time: invalid duration"
    else
      match leadingIntGo 0 (c :: s') with
      | none => .error "time: invalid duration"
      | some (v, s1) =>
        let pre : Bool := s1.length != (c :: s').length
        let fracRes : Nat × Nat × List Char × Bool :=
          match s1 with
          | '.' :: s1' =>
            let (f, scale, s2) := leadingFractionGo 0 1 false s1'
            (f, scale, s2, s2.length != s1'.length)
          | _ => (0, 1, s1, false)
        let f := fracRes.1
        let scale := fracRes.2.1
        let s2 := fracRes.2.2.1
        let post := fracRes.2.2.2
        if !pre && !post then .error "time: invalid duration"
        else
          let i := unitLen s2
          if i == 0 then .error "time: missing unit in duration"
          else
            let u : String := ⟨s2.take i⟩
            let s3 := s2.drop i
            match unitNanos u with
            | none => .error ("time: unknown unit " ++ u ++ " in duration")
            | some unit =>
              if v > maxI64 / unit then .error "time: invalid duration"
              else
                let v1 := v * unit
                let v2 := if f > 0 then v1 + (f * unit) / scale else v1
                if v2 > maxI64 then .error "time: invalid duration"
                else
                  let d2 := d + v2
                  if d2 > maxI64 then .error "time: invalid duration"
                  else parseDurationLoop fuel d2 s3

/-- Go `time.ParseDuration`, returning the duration in nanoseconds. -/
def ParseDuration (str : String) : Except String Int :=
  let s0 := str.toList
  let signRes : Bool × List Char :=
    match s0 with
    | c :: rest => if c == '-' || c == '+' then (c == '-', rest) else (false, s0)
    | [] => (false, s0)
  let neg := signRes.1
  let s1 := signRes.2
  if s1 == ['0'] then .ok 0
  else if s1.isEmpty then .error ("time: invalid duration " ++ str)
  else
    match parseDurationLoop (s1.length + 1) 0 s1 with
    | .error e => .error e
    | .ok d => .ok (if neg then -(d : Int) else (d : Int))

/-- Go `int(dur.Seconds())`: nanoseconds to whole seconds, truncating
toward zero (the float64 rounding of `Duration.Seconds` is exact on every
value this program manipulates). -/
def durationSecondsInt (d : Int) : Int := Int.tdiv d 1000000000

/-! ## Auth configuration types (the fields of `vaultApi.AuthConfigInput`,
`vaultApi.AuthConfigOutput`, `vaultApi.EnableAuthOptions` and
`vaultApi.AuthMount` that this program reads or writes) -/

structure AuthConfigInput where
  DefaultLeaseTTL : String
  MaxLeaseTTL : String
  PluginName : String
  AuditNonHMACRequestKeys : List String
  AuditNonHMACResponseKeys : List String
  ListingVisibility : String
  PassthroughRequestHeaders : List String
deriving DecidableEq, Repr

structure AuthConfigOutput where
  DefaultLeaseTTL : Int
  MaxLeaseTTL : Int
  PluginName : String
  AuditNonHMACRequestKeys : List String
  AuditNonHMACResponseKeys : List String
  ListingVisibility : String
  PassthroughRequestHeaders : List String
deriving DecidableEq, Repr

structure EnableAuthOptions where
  Type' : String
  Description : String
  Config : AuthConfigInput
deriving DecidableEq, Repr

structure AuthMount where
  Type' : String
  Config : AuthConfigOutput
deriving DecidableEq, Repr

/-- `ConvertAuthConfig` (sys_auth.go): convert an `AuthConfigInput` to an
`AuthConfigOutput`, parsing the duration-string TTL fields into integer
seconds; an empty TTL field is left at the integer zero value. -/
def ConvertAuthConfig (input : AuthConfigInput) : Except String AuthConfigOutput :=
  let dfl : Except String Int :=
    if input.DefaultLeaseTTL == "" then .ok 0
    else
      match ParseDuration input.DefaultLeaseTTL with
      | .error e =>
        .error ("could not parse DefaultLeaseTTL value " ++ input.DefaultLeaseTTL
          ++ " as seconds: " ++ e)
      | .ok dur => .ok (durationSecondsInt dur)
  match dfl with
  | .error e => .error e
  | .ok dl =>
    let mx : Except String Int :=
      if input.MaxLeaseTTL == "" then .ok 0
      else
        match ParseDuration input.MaxLeaseTTL with
        | .error e =>
          .error ("could not parse MaxLeaseTTL value " ++ input.MaxLeaseTTL
            ++ " as seconds: " ++ e)
        | .ok dur => .ok (durationSecondsInt dur)
    match mx with
    | .error e => .error e
    | .ok ml =>
      .ok { DefaultLeaseTTL := dl
            MaxLeaseTTL := ml
            PluginName := input.PluginName
            AuditNonHMACRequestKeys := input.AuditNonHMACRequestKeys
            AuditNonHMACResponseKeys := input.AuditNonHMACResponseKeys
            ListingVisibility := input.ListingVisibility
            PassthroughRequestHeaders := input.PassthroughRequestHeaders }

/-- `isConfigApplied` (sys_auth.go): true when the converted local config
deep-equals the remote config.  Returns `(error, applied)` in that order,
as the Go function does. -/
def isConfigApplied (localConfig : AuthConfigInput) (remoteConfig : AuthConfigOutput) :
    Option String × Bool :=
  match ConvertAuthConfig localConfig with
  | .error e => (some e, false)
  | .ok converted => (none, converted == remoteConfig)

/-! ## Mutating-call trace -/

/-- A mutating remote call issued against the Vault service.  Read calls
(ListAuth, ListPolicies, GetPolicy, ...) are not traced. -/
inductive VCall
  | putPolicy (name text : String)
  | deletePolicy (name : String)
  | enableAuth (path : String) (opts : EnableAuthOptions)
  | disableAuth (path : String)
deriving DecidableEq, Repr

/-! ## The policy handler (`path_handlers/sys_policy.go`)

The handler is parametric in the remote service: a `PolicyClient σ` is the
subset of the `vault.Vault` interface the policy handler uses, over an
abstract remote-state type `σ`.  Reads leave the state unchanged; mutating
calls return the next state or an error message. -/

structure SysPolicy where
  Name : String
  Policy : String
deriving DecidableEq, Repr

structure PolicyClient (σ : Type) where
  getPolicy : σ → String → Except String String
  putPolicy : σ → String → String → Except String σ
  deletePolicy : σ → String → Except String σ

/-- `fixedPolicies` (sys_policy.go): policy names that must never be
deleted. -/
def fixedPolicies (name : String) : Bool := name == "root" || name == "default"

/-- `policyExists` (sys_policy.go): true if the name is in the live policy
list snapshot. -/
def policyExists (livePolicyList : List String) (policy : SysPolicy) : Bool :=
  livePolicyList.any fun p => p == policy.Name

/-- `isPolicyApplied` (sys_policy.go): `(applied, err)`; note every branch
of the Go function returns a nil error, a `GetPolicy` failure included. -/
def isPolicyApplied {σ : Type} (c : PolicyClient σ) (livePolicyList : List String)
    (st : σ) (policy : SysPolicy) : Bool × Option String :=
  if !(policyExists livePolicyList policy) then (false, none)
  else
    match c.getPolicy st policy.Name with
    | .error _ => (false, none)
    | .ok remotePolicy => (policy.Policy == remotePolicy, none)

/-- Result of one policy-handler step: the grown configured list, the
remote state, the mutating calls issued, and the error if any. -/
structure PStepRes (σ : Type) where
  cfg : List String
  st : σ
  calls : List VCall
  err : Option String

/-- `EnsurePolicy` (sys_policy.go): append the name to
`configuredPolicyList`; skip the put when the policy is already applied,
else issue `PutPolicy`. -/
def EnsurePolicy {σ : Type} (c : PolicyClient σ) (livePolicyList : List String)
    (cfg : List String) (st : σ) (policy : SysPolicy) : PStepRes σ :=
  let cfg1 := cfg ++ [policy.Name]
  match isPolicyApplied c livePolicyList st policy with
  | (_, some e) => ⟨cfg1, st, [], some e⟩
  | (true, none) => ⟨cfg1, st, [], none⟩
  | (false, none) =>
    match c.putPolicy st policy.Name policy.Policy with
    | .error e => ⟨cfg1, st, [.putPolicy policy.Name policy.Policy], some e⟩
    | .ok st' => ⟨cfg1, st', [.putPolicy policy.Name policy.Policy], none⟩

/-- Result of reading one file of the declared tree. -/
inductive FileRead (α : Type)
  | readErr (msg : String)
  | badJson (msg : String)
  | parsed (val : α)
deriving DecidableEq, Repr

/-- One callback invocation of `filepath.Walk`, as the policy handler's
`walkFile` sees it: a nonexistent root (`f == nil`), a traversal error on
an existing entry, a directory, or a file together with the outcome of
reading and JSON-decoding it.  The `String` payload of a parsed policy
file is its `policy` field. -/
inductive PolicyEntry
  | missing (path : String)
  | walkErr (path : String) (msg : String)
  | dir (path : String)
  | file (path : String) (content : FileRead String)
deriving DecidableEq, Repr

/-- `walkFile` (sys_policy.go). -/
def policyWalkFile {σ : Type} (c : PolicyClient σ) (livePolicyList : List String)
    (e : PolicyEntry) (cfg : List String) (st : σ) : PStepRes σ :=
  match e with
  | .missing _ => ⟨cfg, st, [], none⟩
  | .walkErr path msg => ⟨cfg, st, [], some ("error reading " ++ path ++ ": " ++ msg)⟩
  | .dir _ => ⟨cfg, st, [], none⟩
  | .file path content =>
    match content with
    | .readErr msg => ⟨cfg, st, [], some msg⟩
    | .badJson msg => ⟨cfg, st, [], some ("failed to parse json in " ++ path ++ ": " ++ msg)⟩
    | .parsed body =>
      let policy : SysPolicy := ⟨baseName path, body⟩
      let r := EnsurePolicy c livePolicyList cfg st policy
      match r.err with
      | some e => { r with err := some ("failed to apply policy from " ++ path ++ ": " ++ e) }
      | none => r

/-- `filepath.Walk path sh.walkFile` for the policy handler: fold
`walkFile` over the entries the traversal yields, aborting on the first
error as `filepath.Walk` does. -/
def policyWalk {σ : Type} (c : PolicyClient σ) (livePolicyList : List String) :
    List PolicyEntry → List String → σ → PStepRes σ
  | [], cfg, st => ⟨cfg, st, [], none⟩
  | e :: rest, cfg, st =>
    match policyWalkFile c livePolicyList e cfg st with
    | ⟨cfg', st', cs, some m⟩ => ⟨cfg', st', cs, some m⟩
    | ⟨cfg', st', cs, none⟩ =>
      let r := policyWalk c livePolicyList rest cfg' st'
      ⟨r.cfg, r.st, cs ++ r.calls, r.err⟩

/-- Result of `RemoveUndeclaredPolicies`: final remote state, call trace,
the `deleted` list the Go function returns, and its (always nil) error. -/
structure PPruneRes (σ : Type) where
  st : σ
  calls : List VCall
  deleted : List String
  err : Option String

/-- `RemoveUndeclaredPolicies` (sys_policy.go): delete every live policy
that is neither fixed nor configured.  The Go code discards the error of
`DeletePolicy` and always returns a nil error. -/
def RemoveUndeclaredPolicies {σ : Type} (c : PolicyClient σ) (cfg : List String)
    (st : σ) : List String → PPruneRes σ
  | [] => ⟨st, [], [], none⟩
  | liveName :: rest =>
    if fixedPolicies liveName then RemoveUndeclaredPolicies c cfg st rest
    else if cfg.any (fun configuredName => liveName == configuredName) then
      RemoveUndeclaredPolicies c cfg st rest
    else
      let st' := match c.deletePolicy st liveName with
        | .ok s => s
        | .error _ => st
      let r := RemoveUndeclaredPolicies c cfg st' rest
      ⟨r.st, .deletePolicy liveName :: r.calls, liveName :: r.deleted, r.err⟩

/-- Result of a whole policy `PutPoliciesFromDir` run.  `pruneCount` is a
ghost counter recording how many times `RemoveUndeclaredPolicies` ran. -/
structure PRunRes (σ : Type) where
  cfg : List String
  st : σ
  calls : List VCall
  pruneCount : Nat
  deleted : List String
  err : Option String

/-- `PutPoliciesFromDir` (sys_policy.go): walk the declared tree, then —
only when the walk returned no error — prune undeclared policies once. -/
def policyPutPoliciesFromDir {σ : Type} (c : PolicyClient σ) (livePolicyList : List String)
    (entries : List PolicyEntry) (st : σ) : PRunRes σ :=
  let w := policyWalk c livePolicyList entries [] st
  match w.err with
  | some m => ⟨w.cfg, w.st, w.calls, 0, [], some m⟩
  | none =>
    let p := RemoveUndeclaredPolicies c w.cfg w.st livePolicyList
    ⟨w.cfg, p.st, w.calls ++ p.calls, 1, p.deleted, p.err⟩

/-! ### The honest remote service for policies

`NewSysPolicyHandler` snapshots the live policy list with `ListPolicies`;
an honest remote service stores policies verbatim. -/

/-- Remote policy store: names to documents, distinct names. -/
abbrev PolicyMap : Type := List (String × String)

def honestPolicyClient : PolicyClient PolicyMap where
  getPolicy st name :=
    match lookupKey name st with
    | some text => .ok text
    | none => .error ("no policy named " ++ name)
  putPolicy st name text := .ok (insertKey name text st)
  deletePolicy st name := .ok (eraseKey name st)

/-- A full reconciliation run of the policy handler against an honest
remote service holding `st`: the handler is constructed with
`ListPolicies` (the names of `st`), then `PutPoliciesFromDir` runs. -/
def policyRun (entries : List PolicyEntry) (st : PolicyMap) : PRunRes PolicyMap :=
  policyPutPoliciesFromDir honestPolicyClient (st.map Prod.fst) entries st

/-- The declared policies (name and body) of a walk-entry list, in walk
order. -/
def entryPolicies : List PolicyEntry → List (String × String)
  | [] => []
  | .file path (.parsed body) :: rest => (baseName path, body) :: entryPolicies rest
  | _ :: rest => entryPolicies rest

/-! ## The auth handler (`path_handlers/sys_auth.go`)

Parametric in the remote service, as for policies.  The live auth-mount
map is snapshotted once by `NewSysAuthHandler` via `ListAuth`. -/

structure AuthClient (σ : Type) where
  enableAuth : σ → String → EnableAuthOptions → Except String σ
  disableAuth : σ → String → Except String σ

/-- Result of one auth-handler step. -/
structure AStepRes (σ : Type) where
  cfg : List (String × AuthMount)
  st : σ
  calls : List VCall
  err : Option String

/-- `ensureAuth` (sys_auth.go): convert the declared config, record the
mount in `configuredAuthMap`, skip the enable call when the live mount at
the same path has deep-equal converted configuration, otherwise issue
`EnableAuth`. -/
def ensureAuth {σ : Type} (c : AuthClient σ) (liveAuthMap : List (String × AuthMount))
    (cfg : List (String × AuthMount)) (st : σ) (path : String)
    (enableOpts : EnableAuthOptions) : AStepRes σ :=
  match ConvertAuthConfig enableOpts.Config with
  | .error e => ⟨cfg, st, [], some e⟩
  | .ok enableOptsAuthConfigOutput =>
    let authMount : AuthMount := ⟨enableOpts.Type', enableOptsAuthConfigOutput⟩
    let cfg1 := insertKey path authMount cfg
    let enable : AStepRes σ :=
      match c.enableAuth st path enableOpts with
      | .error e =>
        ⟨cfg1, st, [.enableAuth path enableOpts],
          some ("could not enable auth " ++ path ++ ": " ++ e)⟩
      | .ok st' => ⟨cfg1, st', [.enableAuth path enableOpts], none⟩
    match lookupKey path liveAuthMap with
    | some liveAuth =>
      match isConfigApplied enableOpts.Config liveAuth.Config with
      | (some e, _) =>
        ⟨cfg1, st, [],
          some ("could not determine whether configuration for auth mount "
            ++ enableOpts.Type' ++ " was applied: " ++ e)⟩
      | (none, true) => ⟨cfg1, st, [], none⟩
      | (none, false) => enable
    | none => enable

/-- `DisableUnconfiguredAuths` (sys_auth.go): disable every live mount
that is not configured, except mounts of type "token"; a `DisableAuth`
failure aborts with an error. -/
def DisableUnconfiguredAuths {σ : Type} (c : AuthClient σ)
    (cfg : List (String × AuthMount)) (st : σ) :
    List (String × AuthMount) → σ × List VCall × Option String
  | [] => (st, [], none)
  | (path, authMount) :: rest =>
    match lookupKey path cfg with
    | some _ => DisableUnconfiguredAuths c cfg st rest
    | none =>
      if authMount.Type' == "token" then DisableUnconfiguredAuths c cfg st rest
      else
        match c.disableAuth st path with
        | .error e =>
          (st, [.disableAuth path],
            some ("failed to disable authMount at " ++ path ++ ": " ++ e))
        | .ok st' =>
          let r := DisableUnconfiguredAuths c cfg st' rest
          (r.1, .disableAuth path :: r.2.1, r.2.2)

/-- `apiPath` (helper of the handlers, not under `src/`).  Modelled from
the spec: the relative file path with the document-root prefix stripped
maps to the resource's logical identifier, so `apiPath docPath path`
returns `path` relative to `docPath`, and fails when `path` does not lie
under `docPath`. -/
def apiPath (docPath path : String) : Except String String :=
  if strHasPrefix path (docPath ++ "/") then
    .ok ⟨path.toList.drop (docPath ++ "/").toList.length⟩
  else .error ("could not determine relative path of " ++ path ++ " to " ++ docPath)

/-- One `filepath.Walk` callback invocation as the auth handler's
`walkFile` sees it.  A parsed auth file carries its decoded
`EnableAuthOptions`. -/
inductive AuthEntry
  | missing (path : String)
  | walkErr (path : String) (msg : String)
  | dir (path : String)
  | file (path : String) (content : FileRead EnableAuthOptions)
deriving DecidableEq, Repr

/-- `walkFile` (sys_auth.go). -/
def authWalkFile {σ : Type} (c : AuthClient σ) (docPath : String)
    (liveAuthMap : List (String × AuthMount)) (e : AuthEntry)
    (cfg : List (String × AuthMount)) (st : σ) : AStepRes σ :=
  match e with
  | .missing _ => ⟨cfg, st, [], none⟩
  | .walkErr path msg => ⟨cfg, st, [], some ("error reading " ++ path ++ ": " ++ msg)⟩
  | .dir _ => ⟨cfg, st, [], none⟩
  | .file path content =>
    match apiPath docPath path with
    | .error e => ⟨cfg, st, [], some e⟩
    | .ok policyPath =>
      if !(strHasPrefix policyPath "sys/auth") then
        ⟨cfg, st, [], some ("found file without sys/auth prefix: " ++ policyPath)⟩
      else
        match content with
        | .readErr msg => ⟨cfg, st, [], some msg⟩
        | .badJson msg =>
          ⟨cfg, st, [], some ("could not parse json from file " ++ path ++ ": " ++ msg)⟩
        | .parsed enableOpts =>
          let sysAuthPath := strTrimPrefix policyPath "sys/auth/" ++ "/"
          let r := ensureAuth c liveAuthMap cfg st sysAuthPath enableOpts
          match r.err with
          | some e =>
            { r with err := some ("error while ensuring auth for path " ++ path ++ ": " ++ e) }
          | none => r

/-- `filepath.Walk path sh.walkFile` for the auth handler. -/
def authWalk {σ : Type} (c : AuthClient σ) (docPath : String)
    (liveAuthMap : List (String × AuthMount)) :
    List AuthEntry → List (String × AuthMount) → σ → AStepRes σ
  | [], cfg, st => ⟨cfg, st, [], none⟩
  | e :: rest, cfg, st =>
    match authWalkFile c docPath liveAuthMap e cfg st with
    | ⟨cfg', st', cs, some m⟩ => ⟨cfg', st', cs, some m⟩
    | ⟨cfg', st', cs, none⟩ =>
      let r := authWalk c docPath liveAuthMap rest cfg' st'
      ⟨r.cfg, r.st, cs ++ r.calls, r.err⟩

/-- Result of a whole auth `PutPoliciesFromDir` run, with the same ghost
`pruneCount` as on the policy side. -/
structure ARunRes (σ : Type) where
  cfg : List (String × AuthMount)
  st : σ
  calls : List VCall
  pruneCount : Nat
  err : Option String

/-- `PutPoliciesFromDir` (sys_auth.go): walk the declared tree, then —
only when the walk returned no error — disable unconfigured auths once. -/
def authPutPoliciesFromDir {σ : Type} (c : AuthClient σ) (docPath : String)
    (liveAuthMap : List (String × AuthMount)) (entries : List AuthEntry) (st : σ) :
    ARunRes σ :=
  let w := authWalk c docPath liveAuthMap entries [] st
  match w.err with
  | some m => ⟨w.cfg, w.st, w.calls, 0, some m⟩
  | none =>
    let p := DisableUnconfiguredAuths c w.cfg w.st liveAuthMap
    ⟨w.cfg, p.1, w.calls ++ p.2.1, 1, p.2.2⟩

/-! ### The honest remote service for auth mounts

`EnableAuthWithOptions` makes Vault store the mount with the declared type
and the converted configuration (Vault performs the same duration
conversion internally, as the comment on `ConvertAuthConfig` in the source
notes); `DisableAuth` unmounts it. -/

abbrev AuthMap : Type := List (String × AuthMount)

def honestAuthClient : AuthClient AuthMap where
  enableAuth st path opts :=
    match ConvertAuthConfig opts.Config with
    | .error e => .error e
    | .ok out => .ok (insertKey path ⟨opts.Type', out⟩ st)
  disableAuth st path := .ok (eraseKey path st)

/-- A full reconciliation run of the auth handler against an honest remote
service holding `st`: the handler is constructed with `ListAuth` (the map
`st` itself), then `PutPoliciesFromDir` runs. -/
def authRun (docPath : String) (entries : List AuthEntry) (st : AuthMap) : ARunRes AuthMap :=
  authPutPoliciesFromDir honestAuthClient docPath st entries st

/-- The declared auth mounts (mount path and options) of a walk-entry
list, in walk order: exactly the files that pass the `apiPath` and
`sys/auth`-prefix guards and decode. -/
def entryAuths (docPath : String) : List AuthEntry → List (String × EnableAuthOptions)
  | [] => []
  | .file path (.parsed opts) :: rest =>
    match apiPath docPath path with
    | .ok policyPath =>
      if strHasPrefix policyPath "sys/auth" then
        (strTrimPrefix policyPath "sys/auth/" ++ "/", opts) :: entryAuths docPath rest
      else entryAuths docPath rest
    | .error _ => entryAuths docPath rest
  | _ :: rest => entryAuths docPath rest

/-! ## The ConfigWalker / dispatcher (`internal/configWalker.go`)

A handler binding is abstracted by its path key and its handler's
`Order()` value; `HandlerMap` is the Go map from relative path prefix to
handler.  `walkConfigDir` first dispatches every binding in
`sortedPaths` order (marking the bound subtrees visited), then walks the
whole tree, dispatching the fallback logic of `walkFile`.  Handler
invocations themselves are abstracted: the model records the dispatch
sequence. -/

/-- The comparator closure passed to `sort.Slice` in `sortedPaths`:
zero (default) `Order()` values always sort last. -/
def handlerLess (hm : List (String × Int)) (p q : String) : Bool :=
  let h1 := (lookupKey p hm).getD 0
  let h2 := (lookupKey q hm).getD 0
  if h1 == 0 then false
  else if h2 == 0 then true
  else decide (h1 < h2)

def insertSorted (less : String → String → Bool) (x : String) : List String → List String
  | [] => [x]
  | y :: ys => if less y x then y :: insertSorted less x ys else x :: y :: ys

/-- A sort consistent with the comparator (Go's `sort.Slice` fixes no
algorithm; ties between zero-priority handlers are unspecified there and
resolved here by insertion order). -/
def sortByLess (less : String → String → Bool) : List String → List String
  | [] => []
  | x :: xs => insertSorted less x (sortByLess less xs)

/-- `sortedPaths` (configWalker.go): the handler-map keys sorted by their
handler's `Order()`. -/
def sortedPaths (hm : List (String × Int)) : List String :=
  sortByLess (handlerLess hm) (hm.map Prod.fst)

/-- `hasParentHandler` (configWalker.go): true when a strict ancestor
prefix of `path` has a binding in the handler map. -/
def hasParentHandler (hm : List (String × Int)) (path : String) : Bool :=
  let pathArr := splitSlash path
  (List.range (pathArr.length - 1)).any fun i =>
    let s := joinSlash (pathArr.take (i + 1))
    if s == path then false
    else (lookupKey s hm).isSome

/-- Go `filepath.Join configDir v` for the plain relative components this
program uses. -/
def joinPath (configDir v : String) : String := configDir ++ "/" ++ v

/-- Go `filepath.Rel base path` for the paths this program manipulates:
`"."` for the base itself, the suffix when `path` lies under `base`,
an error otherwise. -/
def filepathRel (base path : String) : Except String String :=
  if path == base then .ok "."
  else if strHasPrefix path (base ++ "/") then
    .ok ⟨path.toList.drop (base ++ "/").toList.length⟩
  else .error ("could not determine relative path of " ++ path ++ " to " ++ base)

/-- One callback invocation of the fallback `filepath.Walk` in
`walkConfigDir`, as `ConfigWalker.walkFile` sees it. -/
inductive CWEntry
  | missing (path : String)
  | file (path : String)
  | dir (path : String)
deriving DecidableEq, Repr

/-- `ConfigWalker.walkFile` (configWalker.go): decide whether this tree
entry gets dispatched to its bound handler.  Returns the relative path
dispatched, `none` when the entry is skipped, or an error. -/
def cwWalkFile (hm : List (String × Int)) (visited : List String) (configDir : String) :
    CWEntry → Except String (Option String)
  | .missing _ => .ok none
  | .file _ => .ok none
  | .dir path =>
    if visited.any (fun v => v == path) then .ok none
    else
      match filepathRel configDir path with
      | .error e => .error e
      | .ok relPath =>
        let pathArray := splitSlash relPath
        if pathArray.headD "" == "." then .ok none
        else if hasParentHandler hm relPath then .ok none
        else
          match lookupKey relPath hm with
          | none => .ok none
          | some _ => .ok (some relPath)

/-- The dispatch record of one `ConfigWalker.Run`: the binding keys
dispatched by the first phase of `walkConfigDir`, in order, and the
relative paths dispatched by the fallback tree walk. -/
structure CWDispatch where
  phase1 : List String
  fallback : List String
  err : Option String
deriving DecidableEq, Repr

/-- `walkConfigDir` (configWalker.go), recorded as a dispatch sequence:
every binding key is dispatched in `sortedPaths` order and its joined
directory marked visited; then the fallback walk over the tree entries
runs `walkFile` on each.  Handler calls themselves are abstracted (their
outcomes belong to the handler models above). -/
def walkConfigDir (hm : List (String × Int)) (configDir : String)
    (treeEntries : List CWEntry) : CWDispatch :=
  let paths := sortedPaths hm
  let visited := paths.map (joinPath configDir)
  let fb := treeEntries.foldl
    (fun (acc : List String × Option String) e =>
      match acc.2 with
      | some _ => acc
      | none =>
        match cwWalkFile hm visited configDir e with
        | .error m => (acc.1, some m)
        | .ok none => acc
        | .ok (some relPath) => (acc.1 ++ [relPath], none))
    ([], none)
  ⟨paths, fb.1, fb.2⟩

/-! ## Lemmas: association-list maps -/

theorem lookupKey_insert_self {α : Type} (k : String) (v : α) (m : List (String × α)) :
    lookupKey k (insertKey k v m) = some v := by
  induction m with
  | nil => simp [insertKey, lookupKey]
  | cons hd tl ih =>
    obtain ⟨k', v'⟩ := hd
    by_cases h : k' = k
    · simp [insertKey, lookupKey, h]
    · simp [insertKey, lookupKey, h, ih]

theorem lookupKey_insert_ne {α : Type} {k k' : String} (v : α) (m : List (String × α))
    (h : k' ≠ k) : lookupKey k' (insertKey k v m) = lookupKey k' m := by
  have h' : ¬(k = k') := fun hh => h hh.symm
  induction m with
  | nil => simp [insertKey, lookupKey, h']
  | cons hd tl ih =>
    obtain ⟨k₀, v₀⟩ := hd
    by_cases h0 : k₀ = k
    · subst h0
      simp [insertKey, lookupKey, h']
    · by_cases h1 : k₀ = k'
      · simp [insertKey, lookupKey, h0, h1, h]
      · simp [insertKey, lookupKey, h0, h1, ih]

theorem lookupKey_erase_self {α : Type} (k : String) (m : List (String × α)) :
    lookupKey k (eraseKey k m) = none := by
  induction m with
  | nil => simp [eraseKey, lookupKey]
  | cons hd tl ih =>
    obtain ⟨k', v'⟩ := hd
    by_cases h : k' = k
    · simp [eraseKey, h, ih]
    · simp [eraseKey, lookupKey, h, ih]

theorem lookupKey_erase_ne {α : Type} {k k' : String} (m : List (String × α))
    (h : k' ≠ k) : lookupKey k' (eraseKey k m) = lookupKey k' m := by
  have h' : ¬(k = k') := fun hh => h hh.symm
  induction m with
  | nil => simp [eraseKey, lookupKey]
  | cons hd tl ih =>
    obtain ⟨k₀, v₀⟩ := hd
    by_cases h0 : k₀ = k
    · subst h0
      simp [eraseKey, lookupKey, h', ih]
    · by_cases h1 : k₀ = k'
      · simp [eraseKey, lookupKey, h0, h1, h]
      · simp [eraseKey, lookupKey, h0, h1, ih]

theorem mem_keys_of_lookupKey {α : Type} {k : String} {v : α} {m : List (String × α)}
    (h : lookupKey k m = some v) : k ∈ m.map Prod.fst := by
  induction m with
  | nil => simp [lookupKey] at h
  | cons hd tl ih =>
    obtain ⟨k', v'⟩ := hd
    by_cases h0 : k' = k
    · simp [h0]
    · simp only [lookupKey] at h
      rw [if_neg (by simp [h0])] at h
      simp only [List.map_cons, List.mem_cons]
      right
      exact ih h

theorem lookupKey_eq_none {α : Type} {k : String} {m : List (String × α)}
    (h : k ∉ m.map Prod.fst) : lookupKey k m = none := by
  induction m with
  | nil => simp [lookupKey]
  | cons hd tl ih =>
    obtain ⟨k', v'⟩ := hd
    simp only [List.map_cons, List.mem_cons, not_or] at h
    have h1 : ¬(k' = k) := fun hh => h.1 hh.symm
    simp [lookupKey, h1, ih h.2]

theorem lookupKey_isSome_of_mem_keys {α : Type} {k : String} {m : List (String × α)}
    (h : k ∈ m.map Prod.fst) : (lookupKey k m).isSome := by
  induction m with
  | nil => simp at h
  | cons hd tl ih =>
    obtain ⟨k', v'⟩ := hd
    by_cases h0 : k' = k
    · simp [lookupKey, h0]
    · simp only [List.map_cons, List.mem_cons] at h
      rcases h with h | h
      · exact absurd h.symm h0
      · simp [lookupKey, h0, ih h]

theorem mem_keys_insertKey {α : Type} {k' : String} (k : String) (v : α)
    (m : List (String × α)) (h : k' ∈ (insertKey k v m).map Prod.fst) :
    k' = k ∨ k' ∈ m.map Prod.fst := by
  induction m with
  | nil => simpa [insertKey] using h
  | cons hd tl ih =>
    obtain ⟨k₀, v₀⟩ := hd
    by_cases h0 : k₀ = k
    · simp [insertKey, h0] at h
      rcases h with h | h
      · exact Or.inl h
      · exact Or.inr (by simp [h])
    · simp [insertKey, h0] at h
      rcases h with h | h
      · exact Or.inr (by simp [h])
      · rcases ih (by simpa using h) with h1 | h1
        · exact Or.inl h1
        · exact Or.inr (by simp [h1])

theorem mem_of_mem_eraseKey {α : Type} {p : String × α} {k : String}
    {m : List (String × α)} (h : p ∈ eraseKey k m) : p ∈ m := by
  induction m with
  | nil => simp [eraseKey] at h
  | cons hd tl ih =>
    obtain ⟨k₀, v₀⟩ := hd
    by_cases h0 : k₀ = k
    · simp only [eraseKey] at h
      rw [if_pos (by simp [h0])] at h
      exact List.mem_cons.mpr (Or.inr (ih h))
    · simp only [eraseKey] at h
      rw [if_neg (by simp [h0])] at h
      rcases List.mem_cons.mp h with h | h
      · exact List.mem_cons.mpr (Or.inl h)
      · exact List.mem_cons.mpr (Or.inr (ih h))

theorem fst_not_mem_eraseKey {α : Type} (k : String) (m : List (String × α)) :
    k ∉ (eraseKey k m).map Prod.fst := by
  intro h
  have hs := lookupKey_isSome_of_mem_keys h
  rw [lookupKey_erase_self] at hs
  simp at hs

/-! ## Lemmas: prune call traces -/

/-- With distinct keys, membership in an association list determines the
value. -/
theorem nodup_keys_mem_unique {α : Type} {m : List (String × α)}
    (h : (m.map Prod.fst).Nodup) {p : String} {a b : α}
    (ha : (p, a) ∈ m) (hb : (p, b) ∈ m) : a = b := by
  induction m with
  | nil => simp at ha
  | cons hd tl ih =>
    obtain ⟨k, v⟩ := hd
    simp only [List.map_cons, List.nodup_cons] at h
    rcases List.mem_cons.mp ha with ha' | ha' <;>
      rcases List.mem_cons.mp hb with hb' | hb'
    · rw [Prod.mk.injEq] at ha' hb'
      rw [ha'.2, hb'.2]
    · exfalso
      apply h.1
      rw [Prod.mk.injEq] at ha'
      have hp : p ∈ List.map Prod.fst tl := List.mem_map_of_mem Prod.fst hb'
      rwa [ha'.1] at hp
    · exfalso
      apply h.1
      rw [Prod.mk.injEq] at hb'
      have hp : p ∈ List.map Prod.fst tl := List.mem_map_of_mem Prod.fst ha'
      rwa [hb'.1] at hp
    · exact ih h.2 ha' hb'

/-- Every `DisableAuth` call issued by `DisableUnconfiguredAuths` targets a
live mount that is unconfigured and not of type "token". -/
theorem disableAuth_call_charact {σ : Type} {c : AuthClient σ}
    {cfg live : List (String × AuthMount)} {p : String} :
    ∀ {st : σ}, VCall.disableAuth p ∈ (DisableUnconfiguredAuths c cfg st live).2.1 →
    ∃ am, (p, am) ∈ live ∧ lookupKey p cfg = none ∧ am.Type' ≠ "token" := by
  induction live with
  | nil =>
    intro st h
    simp [DisableUnconfiguredAuths] at h
  | cons hd tl ih =>
    intro st h
    obtain ⟨q, am⟩ := hd
    simp only [DisableUnconfiguredAuths] at h
    cases hq : lookupKey q cfg with
    | some _ =>
      rw [hq] at h
      obtain ⟨am', h1, h2, h3⟩ := ih h
      exact ⟨am', List.mem_cons.mpr (Or.inr h1), h2, h3⟩
    | none =>
      rw [hq] at h
      by_cases ht : am.Type' = "token"
      · rw [if_pos (by simp [ht])] at h
        obtain ⟨am', h1, h2, h3⟩ := ih h
        exact ⟨am', List.mem_cons.mpr (Or.inr h1), h2, h3⟩
      · rw [if_neg (by simp [ht])] at h
        cases hd : c.disableAuth st q with
        | error e =>
          rw [hd] at h
          simp at h
          subst h
          exact ⟨am, List.mem_cons.mpr (Or.inl rfl), hq, ht⟩
        | ok st' =>
          rw [hd] at h
          simp only [List.mem_cons] at h
          rcases h with h | h
          · cases h
            exact ⟨am, List.mem_cons.mpr (Or.inl rfl), hq, ht⟩
          · obtain ⟨am', h1, h2, h3⟩ := ih h
            exact ⟨am', List.mem_cons.mpr (Or.inr h1), h2, h3⟩

/-- Every `DeletePolicy` call issued by `RemoveUndeclaredPolicies` targets
a live, non-fixed, unconfigured policy name. -/
theorem deletePolicy_call_charact {σ : Type} {c : PolicyClient σ}
    {cfg live : List String} {name : String} :
    ∀ {st : σ}, VCall.deletePolicy name ∈ (RemoveUndeclaredPolicies c cfg st live).calls →
    name ∈ live ∧ fixedPolicies name = false ∧
      cfg.any (fun configuredName => name == configuredName) = false := by
  induction live with
  | nil =>
    intro st h
    simp [RemoveUndeclaredPolicies] at h
  | cons liveName tl ih =>
    intro st h
    simp only [RemoveUndeclaredPolicies] at h
    by_cases hf : fixedPolicies liveName = true
    · rw [if_pos hf] at h
      obtain ⟨h1, h2, h3⟩ := ih h
      exact ⟨List.mem_cons.mpr (Or.inr h1), h2, h3⟩
    · rw [if_neg hf] at h
      by_cases hc : cfg.any (fun configuredName => liveName == configuredName) = true
      · rw [if_pos hc] at h
        obtain ⟨h1, h2, h3⟩ := ih h
        exact ⟨List.mem_cons.mpr (Or.inr h1), h2, h3⟩
      · rw [if_neg hc] at h
        simp only [List.mem_cons] at h
        rcases h with h | h
        · have hnl : name = liveName := by injection h
          subst hnl
          refine ⟨List.mem_cons.mpr (Or.inl rfl), ?_, ?_⟩
          · cases hx : fixedPolicies name with
            | false => rfl
            | true => exact absurd hx hf
          · cases hx : cfg.any (fun configuredName => name == configuredName) with
            | false => rfl
            | true => exact absurd hx hc
        · obtain ⟨h1, h2, h3⟩ := ih h
          exact ⟨List.mem_cons.mpr (Or.inr h1), h2, h3⟩

/-- C1: the prune operations never touch protected identifiers.
`DisableUnconfiguredAuths` never issues a `DisableAuth` call for a live
auth mount whose type is "token", and `RemoveUndeclaredPolicies` never
issues a `DeletePolicy` call for the names "root" or "default", whatever
the configured (declared) sets are. -/
theorem c1_protected_never_pruned :
    (∀ (σ : Type) (c : AuthClient σ) (cfg live : List (String × AuthMount)) (st : σ)
        (p : String) (am : AuthMount),
        (live.map Prod.fst).Nodup → (p, am) ∈ live → am.Type' = "token" →
        VCall.disableAuth p ∉ (DisableUnconfiguredAuths c cfg st live).2.1) ∧
    (∀ (σ : Type) (c : PolicyClient σ) (cfg live : List String) (st : σ),
        VCall.deletePolicy "root" ∉ (RemoveUndeclaredPolicies c cfg st live).calls ∧
        VCall.deletePolicy "default" ∉ (RemoveUndeclaredPolicies c cfg st live).calls) := by
  constructor
  · intro σ c cfg live st p am hnd hmem htok hcall
    obtain ⟨am', h1, _, h3⟩ := disableAuth_call_charact hcall
    exact h3 (nodup_keys_mem_unique hnd h1 hmem ▸ htok)
  · intro σ c cfg live st
    constructor
    · intro hcall
      obtain ⟨_, h2, _⟩ := deletePolicy_call_charact hcall
      simp [fixedPolicies] at h2
    · intro hcall
      obtain ⟨_, h2, _⟩ := deletePolicy_call_charact hcall
      simp [fixedPolicies] at h2

/-- Fixtures for concrete witnesses. -/
def emptyAuthConfigOutput : AuthConfigOutput := ⟨0, 0, "", [], [], "", []⟩

def tokenMount : AuthMount := ⟨"token", emptyAuthConfigOutput⟩

/-- Witness for C1 at a concrete live state: a live "token"-typed mount at
path "token/" that is absent from the declared tree, and live policies
"root" and "default", none of which are pruned. -/
theorem c1_protected_never_pruned_witness :
    VCall.disableAuth "token/" ∉
      (DisableUnconfiguredAuths honestAuthClient [] [("token/", tokenMount)]
        [("token/", tokenMount)]).2.1 ∧
    VCall.deletePolicy "root" ∉
      (RemoveUndeclaredPolicies honestPolicyClient [] [("root", "x")]
        ["root", "default", "legacy"]).calls := by
  constructor
  · exact c1_protected_never_pruned.1 AuthMap honestAuthClient [] [("token/", tokenMount)]
      [("token/", tokenMount)] "token/" tokenMount (by decide) (by decide) (by decide)
  · exact (c1_protected_never_pruned.2 PolicyMap honestPolicyClient []
      ["root", "default", "legacy"] [("root", "x")]).1

/-- `RemoveUndeclaredPolicies` returns a nil error on every input — the Go
function discards the result of `DeletePolicy`. -/
theorem RemoveUndeclaredPolicies_err_none {σ : Type} (c : PolicyClient σ)
    (cfg : List String) (live : List String) :
    ∀ st : σ, (RemoveUndeclaredPolicies c cfg st live).err = none := by
  induction live with
  | nil => intro st; rfl
  | cons liveName tl ih =>
    intro st
    simp only [RemoveUndeclaredPolicies]
    by_cases hf : fixedPolicies liveName = true
    · rw [if_pos hf]
      exact ih st
    · rw [if_neg hf]
      by_cases hc : cfg.any (fun configuredName => liveName == configuredName) = true
      · rw [if_pos hc]
        exact ih st
      · rw [if_neg hc]
        simp only
        exact ih _

/-- With an empty configured list, `RemoveUndeclaredPolicies` issues a
delete call for exactly the non-fixed live names, in order. -/
theorem RemoveUndeclaredPolicies_cfg_empty {σ : Type} (c : PolicyClient σ)
    (live : List String) :
    ∀ st : σ, (RemoveUndeclaredPolicies c [] st live).calls =
      (live.filter (fun n => !fixedPolicies n)).map VCall.deletePolicy := by
  induction live with
  | nil => intro st; rfl
  | cons liveName tl ih =>
    intro st
    simp only [RemoveUndeclaredPolicies]
    by_cases hf : fixedPolicies liveName = true
    · rw [if_pos hf]
      simp [List.filter, hf, ih]
    · rw [if_neg hf]
      have hf' : fixedPolicies liveName = false := by
        cases hx : fixedPolicies liveName with
        | false => rfl
        | true => exact absurd hx hf
      rw [if_neg (by simp)]
      simp [List.filter, hf', ih]

/-- With an empty configured map and the honest remote service,
`DisableUnconfiguredAuths` issues a disable call for exactly the live
mounts whose type is not "token", in order. -/
theorem DisableUnconfiguredAuths_cfg_empty (live : List (String × AuthMount)) :
    ∀ st : AuthMap,
      (DisableUnconfiguredAuths honestAuthClient [] st live).2.1 =
        (live.filter (fun pm => !(pm.2.Type' == "token"))).map
          (fun pm => VCall.disableAuth pm.1) ∧
      (DisableUnconfiguredAuths honestAuthClient [] st live).2.2 = none := by
  induction live with
  | nil => intro st; exact ⟨rfl, rfl⟩
  | cons hd tl ih =>
    intro st
    obtain ⟨q, am⟩ := hd
    simp only [DisableUnconfiguredAuths, lookupKey]
    by_cases ht : am.Type' = "token"
    · rw [if_pos (by simp [ht])]
      refine ⟨?_, (ih st).2⟩
      rw [List.filter_cons, if_neg (by simp [ht])]
      exact (ih st).1
    · rw [if_neg (by simp [ht])]
      simp only [honestAuthClient]
      refine ⟨?_, (ih _).2⟩
      rw [List.filter_cons, if_pos (by simp [ht])]
      simp only [List.map_cons]
      exact congrArg (List.cons (VCall.disableAuth q)) ((ih (eraseKey q st)).1)

/-- C10: calling `PutPoliciesFromDir` on a path that does not exist is not
an error — `walkFile` sees a nil `FileInfo` and skips — yet the prune step
still runs against an empty configured set, so every live policy other
than "root"/"default" is passed to `DeletePolicy`, and every live auth
mount not of type "token" is passed to `DisableAuth`. -/
theorem c10_missing_path_prunes_everything (path docPath : String) (st : PolicyMap)
    (ast : AuthMap) :
    ((policyRun [.missing path] st).err = none ∧
     (policyRun [.missing path] st).pruneCount = 1 ∧
     (policyRun [.missing path] st).calls =
       ((st.map Prod.fst).filter (fun n => !fixedPolicies n)).map VCall.deletePolicy) ∧
    ((authRun docPath [.missing path] ast).err = none ∧
     (authRun docPath [.missing path] ast).pruneCount = 1 ∧
     (authRun docPath [.missing path] ast).calls =
       (ast.filter (fun pm => !(pm.2.Type' == "token"))).map
         (fun pm => VCall.disableAuth pm.1)) := by
  constructor
  · refine ⟨?_, rfl, ?_⟩
    · simp only [policyRun, policyPutPoliciesFromDir, policyWalk, policyWalkFile]
      exact RemoveUndeclaredPolicies_err_none _ _ _ _
    · simp only [policyRun, policyPutPoliciesFromDir, policyWalk, policyWalkFile]
      simp [RemoveUndeclaredPolicies_cfg_empty]
  · refine ⟨?_, rfl, ?_⟩
    · simp only [authRun, authPutPoliciesFromDir, authWalk, authWalkFile]
      exact (DisableUnconfiguredAuths_cfg_empty _ _).2
    · simp only [authRun, authPutPoliciesFromDir, authWalk, authWalkFile]
      simp [(DisableUnconfiguredAuths_cfg_empty _ _).1]

/-- A remote service whose read and delete calls fail. -/
def failingPolicyClient : PolicyClient Unit where
  getPolicy _ _ := .error "remote error"
  putPolicy _ _ _ := .ok ()
  deletePolicy _ _ := .error "remote error"

/-- C4 counterexample: with a remote service whose `DeletePolicy` fails,
`RemoveUndeclaredPolicies` still returns a nil error (the failure is
discarded, the name is reported as removed), and with a failing
`GetPolicy`, `isPolicyApplied` returns `(false, nil)` — the run proceeds
to a `PutPolicy` instead of aborting. -/
theorem c4_counterexample :
    (RemoveUndeclaredPolicies failingPolicyClient [] () ["legacy"]).calls =
        [VCall.deletePolicy "legacy"] ∧
    (RemoveUndeclaredPolicies failingPolicyClient [] () ["legacy"]).err = none ∧
    (RemoveUndeclaredPolicies failingPolicyClient [] () ["legacy"]).deleted = ["legacy"] ∧
    isPolicyApplied failingPolicyClient ["ops"] () ⟨"ops", "text"⟩ = (false, none) ∧
    (EnsurePolicy failingPolicyClient ["ops"] [] () ⟨"ops", "text"⟩).calls =
        [VCall.putPolicy "ops" "text"] ∧
    (EnsurePolicy failingPolicyClient ["ops"] [] () ⟨"ops", "text"⟩).err = none := by
  exact ⟨rfl, rfl, rfl, rfl, rfl, rfl⟩

/-- The call trace of `RemoveUndeclaredPolicies` is exactly its returned
`deleted` list, as delete calls. -/
theorem RemoveUndeclaredPolicies_calls_deleted {σ : Type} (c : PolicyClient σ)
    (cfg live : List String) : ∀ st : σ,
    (RemoveUndeclaredPolicies c cfg st live).calls =
      (RemoveUndeclaredPolicies c cfg st live).deleted.map VCall.deletePolicy := by
  induction live with
  | nil => intro st; rfl
  | cons liveName tl ih =>
    intro st
    simp only [RemoveUndeclaredPolicies]
    by_cases hf : fixedPolicies liveName = true
    · rw [if_pos hf]
      exact ih st
    · rw [if_neg hf]
      by_cases hc : cfg.any (fun configuredName => liveName == configuredName) = true
      · rw [if_pos hc]
        exact ih st
      · rw [if_neg hc]
        simp only [List.map_cons]
        rw [ih _]

/-- C4 amended: `DisableUnconfiguredAuths` does propagate a `DisableAuth`
failure as a fatal error, but `RemoveUndeclaredPolicies` always returns a
nil error — a `DeletePolicy` failure is discarded and the name still
reported in the removed list — and a failed `GetPolicy` read during the
ensure comparison is silently treated as "not applied", triggering a
`PutPolicy` call rather than aborting the run. -/
theorem c4_amended_error_handling :
    (∀ (σ : Type) (c : PolicyClient σ) (cfg live : List String) (st : σ),
      (RemoveUndeclaredPolicies c cfg st live).err = none ∧
      (RemoveUndeclaredPolicies c cfg st live).calls =
        (RemoveUndeclaredPolicies c cfg st live).deleted.map VCall.deletePolicy) ∧
    (∀ (σ : Type) (c : PolicyClient σ) (live cfg : List String) (st : σ) (p : SysPolicy)
        (e : String),
      policyExists live p = true → c.getPolicy st p.Name = .error e →
      isPolicyApplied c live st p = (false, none) ∧
      (EnsurePolicy c live cfg st p).calls = [VCall.putPolicy p.Name p.Policy]) ∧
    (∀ (σ : Type) (c : AuthClient σ) (cfg : List (String × AuthMount)) (st : σ)
        (q : String) (am : AuthMount) (rest : List (String × AuthMount)) (e : String),
      lookupKey q cfg = none → am.Type' ≠ "token" → c.disableAuth st q = .error e →
      (DisableUnconfiguredAuths c cfg st ((q, am) :: rest)).2.2 =
        some ("failed to disable authMount at " ++ q ++ ": " ++ e)) := by
  refine ⟨?_, ?_, ?_⟩
  · intro σ c cfg live st
    exact ⟨RemoveUndeclaredPolicies_err_none c cfg live st,
      RemoveUndeclaredPolicies_calls_deleted c cfg live st⟩
  · intro σ c live cfg st p e hex hget
    have happ : isPolicyApplied c live st p = (false, none) := by
      simp only [isPolicyApplied, hex]
      rw [if_neg (by simp), hget]
    refine ⟨happ, ?_⟩
    simp only [EnsurePolicy, happ]
    cases c.putPolicy st p.Name p.Policy <;> rfl
  · intro σ c cfg st q am rest e hlk ht hdis
    simp only [DisableUnconfiguredAuths, hlk]
    rw [if_neg (by simp [ht]), hdis]

/-- Witness for C4's amended theorem at concrete inputs: the failing
remote service above, a live policy list `["legacy"]`, a live auth mount
"old/" of type "approle" whose disable fails. -/
def failingAuthClient : AuthClient Unit where
  enableAuth _ _ _ := .ok ()
  disableAuth _ _ := .error "remote error"

theorem c4_amended_error_handling_witness :
    (RemoveUndeclaredPolicies failingPolicyClient [] () ["legacy"]).err = none ∧
    isPolicyApplied failingPolicyClient ["ops"] () ⟨"ops", "text"⟩ = (false, none) ∧
    (DisableUnconfiguredAuths failingAuthClient [] ()
        [("old/", ⟨"approle", emptyAuthConfigOutput⟩)]).2.2 =
      some ("failed to disable authMount at " ++ "old/" ++ ": " ++ "remote error") := by
  refine ⟨(c4_amended_error_handling.1 Unit failingPolicyClient [] ["legacy"] ()).1,
    (c4_amended_error_handling.2.1 Unit failingPolicyClient ["ops"] [] ()
      ⟨"ops", "text"⟩ "remote error" (by decide) rfl).1,
    c4_amended_error_handling.2.2 Unit failingAuthClient [] ()
      "old/" ⟨"approle", emptyAuthConfigOutput⟩ [] "remote error" rfl (by decide) rfl⟩


/-! ## Lemmas: shapes of single ensure steps -/

/-- `EnsurePolicy` always appends exactly the policy's name to the
configured list, whatever else happens. -/
theorem EnsurePolicy_cfg {σ : Type} (c : PolicyClient σ) (live cfg : List String)
    (st : σ) (p : SysPolicy) :
    (EnsurePolicy c live cfg st p).cfg = cfg ++ [p.Name] := by
  simp only [EnsurePolicy]
  obtain ⟨b, oe⟩ := isPolicyApplied c live st p
  cases b <;> cases oe <;> try rfl
  all_goals cases c.putPolicy st p.Name p.Policy <;> rfl

/-- `EnsurePolicy` issues no call or exactly the one `PutPolicy` call. -/
theorem EnsurePolicy_calls {σ : Type} (c : PolicyClient σ) (live cfg : List String)
    (st : σ) (p : SysPolicy) :
    (EnsurePolicy c live cfg st p).calls = [] ∨
    (EnsurePolicy c live cfg st p).calls = [VCall.putPolicy p.Name p.Policy] := by
  simp only [EnsurePolicy]
  obtain ⟨b, oe⟩ := isPolicyApplied c live st p
  cases b <;> cases oe <;> try (left; rfl)
  all_goals cases c.putPolicy st p.Name p.Policy <;> (right; rfl)

/-- `ensureAuth` issues no call or exactly the one `EnableAuth` call. -/
theorem ensureAuth_calls {σ : Type} (c : AuthClient σ) (live cfg : List (String × AuthMount))
    (st : σ) (path : String) (opts : EnableAuthOptions) :
    (ensureAuth c live cfg st path opts).calls = [] ∨
    (ensureAuth c live cfg st path opts).calls = [VCall.enableAuth path opts] := by
  simp only [ensureAuth]
  cases hc : ConvertAuthConfig opts.Config with
  | error e => left; rfl
  | ok out =>
    dsimp only
    cases hl : lookupKey path live with
    | some liveAuth =>
      dsimp only
      obtain ⟨oe, b⟩ := isConfigApplied opts.Config liveAuth.Config
      cases oe <;> cases b <;> try (left; rfl)
      all_goals cases c.enableAuth st path opts <;> (right; rfl)
    | none =>
      dsimp only
      cases c.enableAuth st path opts <;> (right; rfl)

/-- A single policy `walkFile` step issues no call or one `PutPolicy`. -/
theorem policyWalkFile_calls {σ : Type} (c : PolicyClient σ) (live : List String)
    (e : PolicyEntry) (cfg : List String) (st : σ) :
    (policyWalkFile c live e cfg st).calls = [] ∨
    ∃ n t, (policyWalkFile c live e cfg st).calls = [VCall.putPolicy n t] := by
  cases e with
  | missing _ => left; rfl
  | walkErr _ _ => left; rfl
  | dir _ => left; rfl
  | file path content =>
    cases content with
    | readErr _ => left; rfl
    | badJson _ => left; rfl
    | parsed body =>
      have h := EnsurePolicy_calls c live cfg st ⟨baseName path, body⟩
      simp only [policyWalkFile]
      cases he : (EnsurePolicy c live cfg st ⟨baseName path, body⟩).err with
      | some m =>
        simp only
        rcases h with h | h
        · left; exact h
        · right; exact ⟨baseName path, body, h⟩
      | none =>
        rcases h with h | h
        · left; exact h
        · right; exact ⟨baseName path, body, h⟩

/-- A single auth `walkFile` step issues no call or one `EnableAuth`. -/
theorem authWalkFile_calls {σ : Type} (c : AuthClient σ) (docPath : String)
    (live : List (String × AuthMount)) (e : AuthEntry)
    (cfg : List (String × AuthMount)) (st : σ) :
    (authWalkFile c docPath live e cfg st).calls = [] ∨
    ∃ p o, (authWalkFile c docPath live e cfg st).calls = [VCall.enableAuth p o] := by
  cases e with
  | missing _ => left; rfl
  | walkErr _ _ => left; rfl
  | dir _ => left; rfl
  | file path content =>
    simp only [authWalkFile]
    cases hap : apiPath docPath path with
    | error m => left; rfl
    | ok policyPath =>
      dsimp only
      by_cases hpre : strHasPrefix policyPath "sys/auth" = true
      · rw [if_neg (by simp [hpre])]
        cases content with
        | readErr _ => left; rfl
        | badJson _ => left; rfl
        | parsed opts =>
          have h := ensureAuth_calls c live cfg st
            (strTrimPrefix policyPath "sys/auth/" ++ "/") opts
          simp only
          cases he : (ensureAuth c live cfg st
              (strTrimPrefix policyPath "sys/auth/" ++ "/") opts).err with
          | some m =>
            simp only
            rcases h with h | h
            · left; exact h
            · right; exact ⟨_, _, h⟩
          | none =>
            rcases h with h | h
            · left; exact h
            · right; exact ⟨_, _, h⟩
      · rw [if_pos (by simpa using hpre)]
        left; rfl

/-- Every mutating call issued during the policy file walk is a
`PutPolicy` — delete calls can only come from the prune phase. -/
theorem policyWalk_calls_are_puts {σ : Type} (c : PolicyClient σ) (live : List String)
    (entries : List PolicyEntry) : ∀ (cfg : List String) (st : σ),
    ∀ call ∈ (policyWalk c live entries cfg st).calls, ∃ n t, call = VCall.putPolicy n t := by
  induction entries with
  | nil =>
    intro cfg st call h
    simp [policyWalk] at h
  | cons e rest ih =>
    intro cfg st call h
    simp only [policyWalk] at h
    have hcs := policyWalkFile_calls c live e cfg st
    rcases hF : policyWalkFile c live e cfg st with ⟨cfg', st', cs, err⟩
    rw [hF] at h hcs
    dsimp only at hcs
    cases err with
    | some m =>
      dsimp only at h
      rcases hcs with hcs | ⟨n, t, hcs⟩ <;> subst hcs
      · simp at h
      · simp at h
        exact ⟨n, t, h⟩
    | none =>
      dsimp only at h
      rw [List.mem_append] at h
      rcases h with h | h
      · rcases hcs with hcs | ⟨n, t, hcs⟩ <;> subst hcs
        · simp at h
        · simp at h
          exact ⟨n, t, h⟩
      · exact ih cfg' st' call h

/-- Every mutating call issued during the auth file walk is an
`EnableAuth` — disable calls can only come from the prune phase. -/
theorem authWalk_calls_are_enables {σ : Type} (c : AuthClient σ) (docPath : String)
    (live : List (String × AuthMount)) (entries : List AuthEntry) :
    ∀ (cfg : List (String × AuthMount)) (st : σ),
    ∀ call ∈ (authWalk c docPath live entries cfg st).calls, ∃ p o,
      call = VCall.enableAuth p o := by
  induction entries with
  | nil =>
    intro cfg st call h
    simp [authWalk] at h
  | cons e rest ih =>
    intro cfg st call h
    simp only [authWalk] at h
    have hcs := authWalkFile_calls c docPath live e cfg st
    rcases hF : authWalkFile c docPath live e cfg st with ⟨cfg', st', cs, err⟩
    rw [hF] at h hcs
    dsimp only at hcs
    cases err with
    | some m =>
      dsimp only at h
      rcases hcs with hcs | ⟨p, o, hcs⟩ <;> subst hcs
      · simp at h
      · simp at h
        exact ⟨p, o, h⟩
    | none =>
      dsimp only at h
      rw [List.mem_append] at h
      rcases h with h | h
      · rcases hcs with hcs | ⟨p, o, hcs⟩ <;> subst hcs
        · simp at h
        · simp at h
          exact ⟨p, o, h⟩
      · exact ih cfg' st' call h

/-- C5: for both handlers, `PutPoliciesFromDir` runs the prune operation
exactly once, and only after the whole file walk succeeded — its calls are
the walk's calls followed by the prune's calls; when the walk fails on any
entry, the run returns that error, the prune phase never runs, and no
delete/disable call is ever issued. -/
theorem c5_prune_exactly_once_after_walk :
    (∀ (σ : Type) (c : PolicyClient σ) (live : List String) (entries : List PolicyEntry)
        (st : σ),
      ((policyWalk c live entries [] st).err = none →
        (policyPutPoliciesFromDir c live entries st).pruneCount = 1 ∧
        (policyPutPoliciesFromDir c live entries st).calls =
          (policyWalk c live entries [] st).calls ++
            (RemoveUndeclaredPolicies c (policyWalk c live entries [] st).cfg
              (policyWalk c live entries [] st).st live).calls) ∧
      (∀ m, (policyWalk c live entries [] st).err = some m →
        (policyPutPoliciesFromDir c live entries st).pruneCount = 0 ∧
        (policyPutPoliciesFromDir c live entries st).err = some m ∧
        ∀ n, VCall.deletePolicy n ∉ (policyPutPoliciesFromDir c live entries st).calls)) ∧
    (∀ (σ : Type) (c : AuthClient σ) (docPath : String)
        (live : List (String × AuthMount)) (entries : List AuthEntry) (st : σ),
      ((authWalk c docPath live entries [] st).err = none →
        (authPutPoliciesFromDir c docPath live entries st).pruneCount = 1 ∧
        (authPutPoliciesFromDir c docPath live entries st).calls =
          (authWalk c docPath live entries [] st).calls ++
            (DisableUnconfiguredAuths c (authWalk c docPath live entries [] st).cfg
              (authWalk c docPath live entries [] st).st live).2.1) ∧
      (∀ m, (authWalk c docPath live entries [] st).err = some m →
        (authPutPoliciesFromDir c docPath live entries st).pruneCount = 0 ∧
        (authPutPoliciesFromDir c docPath live entries st).err = some m ∧
        ∀ p, VCall.disableAuth p ∉ (authPutPoliciesFromDir c docPath live entries st).calls)) := by
  constructor
  · intro σ c live entries st
    constructor
    · intro hok
      constructor
      · simp [policyPutPoliciesFromDir, hok]
      · simp [policyPutPoliciesFromDir, hok]
    · intro m hm
      refine ⟨?_, ?_, ?_⟩
      · simp [policyPutPoliciesFromDir, hm]
      · simp [policyPutPoliciesFromDir, hm]
      · intro n hmem
        simp only [policyPutPoliciesFromDir, hm] at hmem
        obtain ⟨n', t', he⟩ := policyWalk_calls_are_puts c live entries [] st _ hmem
        simp at he
  · intro σ c docPath live entries st
    constructor
    · intro hok
      constructor
      · simp [authPutPoliciesFromDir, hok]
      · simp [authPutPoliciesFromDir, hok]
    · intro m hm
      refine ⟨?_, ?_, ?_⟩
      · simp [authPutPoliciesFromDir, hm]
      · simp [authPutPoliciesFromDir, hm]
      · intro p hmem
        simp only [authPutPoliciesFromDir, hm] at hmem
        obtain ⟨p', o', he⟩ := authWalk_calls_are_enables c docPath live entries [] st _ hmem
        simp at he

/-- Witness for C5 at concrete inputs: a one-policy tree that walks
successfully (prune runs once), and a tree whose walk fails on a traversal
error (prune never runs). -/
theorem c5_prune_exactly_once_after_walk_witness :
    (policyPutPoliciesFromDir honestPolicyClient ["legacy"]
        [.file "cfg/sys/policy/ops" (.parsed "p")] []).pruneCount = 1 ∧
    (policyPutPoliciesFromDir honestPolicyClient ["legacy"]
        [.walkErr "cfg/sys/policy/bad" "io failure"]
        [("legacy", "x")]).pruneCount = 0 ∧
    VCall.deletePolicy "legacy" ∉
      (policyPutPoliciesFromDir honestPolicyClient ["legacy"]
        [.walkErr "cfg/sys/policy/bad" "io failure"] [("legacy", "x")]).calls ∧
    (authPutPoliciesFromDir honestAuthClient "cfg" []
        [.walkErr "cfg/sys/auth/bad" "io failure"] []).pruneCount = 0 := by
  refine ⟨((c5_prune_exactly_once_after_walk.1 PolicyMap honestPolicyClient ["legacy"]
      [.file "cfg/sys/policy/ops" (.parsed "p")] []).1 rfl).1, ?_, ?_, ?_⟩
  · exact ((c5_prune_exactly_once_after_walk.1 PolicyMap honestPolicyClient ["legacy"]
      [.walkErr "cfg/sys/policy/bad" "io failure"] [("legacy", "x")]).2
        ("error reading " ++ "cfg/sys/policy/bad" ++ ": " ++ "io failure") rfl).1
  · exact ((c5_prune_exactly_once_after_walk.1 PolicyMap honestPolicyClient ["legacy"]
      [.walkErr "cfg/sys/policy/bad" "io failure"] [("legacy", "x")]).2
        ("error reading " ++ "cfg/sys/policy/bad" ++ ": " ++ "io failure") rfl).2.2 "legacy"
  · exact ((c5_prune_exactly_once_after_walk.2 AuthMap honestAuthClient "cfg" []
      [.walkErr "cfg/sys/auth/bad" "io failure"] []).2
        ("error reading " ++ "cfg/sys/auth/bad" ++ ": " ++ "io failure") rfl).1

/-- Whether an `Except` value is an error. -/
def exceptIsError {ε α : Type} : Except ε α → Bool
  | .error _ => true
  | .ok _ => false

/-- C8: canonicalization.  `ConvertAuthConfig` maps the duration string
"1m10s" in a lease-TTL field to the integer 70 (seconds); an empty
duration field becomes the integer zero value without error; all other
fields pass through unchanged; and it fails exactly when a non-empty
duration field does not parse as a duration. -/
theorem c8_convert_auth_config :
    (ParseDuration "1m10s" = .ok 70000000000) ∧
    (ConvertAuthConfig ⟨"1m10s", "", "", [], [], "", []⟩ =
      .ok ⟨70, 0, "", [], [], "", []⟩) ∧
    (ConvertAuthConfig ⟨"", "1m10s", "", [], [], "", []⟩ =
      .ok ⟨0, 70, "", [], [], "", []⟩) ∧
    (∀ input : AuthConfigInput, input.DefaultLeaseTTL = "" → input.MaxLeaseTTL = "" →
      ConvertAuthConfig input = .ok ⟨0, 0, input.PluginName,
        input.AuditNonHMACRequestKeys, input.AuditNonHMACResponseKeys,
        input.ListingVisibility, input.PassthroughRequestHeaders⟩) ∧
    (∀ (input : AuthConfigInput) (out : AuthConfigOutput),
      ConvertAuthConfig input = .ok out →
      out.PluginName = input.PluginName ∧
      out.AuditNonHMACRequestKeys = input.AuditNonHMACRequestKeys ∧
      out.AuditNonHMACResponseKeys = input.AuditNonHMACResponseKeys ∧
      out.ListingVisibility = input.ListingVisibility ∧
      out.PassthroughRequestHeaders = input.PassthroughRequestHeaders) ∧
    (∀ input : AuthConfigInput,
      exceptIsError (ConvertAuthConfig input) = true ↔
      ((¬input.DefaultLeaseTTL = "" ∧
          exceptIsError (ParseDuration input.DefaultLeaseTTL) = true) ∨
       (¬input.MaxLeaseTTL = "" ∧
          exceptIsError (ParseDuration input.MaxLeaseTTL) = true))) := by
  refine ⟨by rfl, by rfl, by rfl, ?_, ?_, ?_⟩
  · intro input hd hm
    simp [ConvertAuthConfig, hd, hm]
  · intro input out hok
    by_cases hd : input.DefaultLeaseTTL = ""
    · by_cases hm : input.MaxLeaseTTL = ""
      · simp [ConvertAuthConfig, hd, hm] at hok
        rw [← hok]
        exact ⟨rfl, rfl, rfl, rfl, rfl⟩
      · cases hp : ParseDuration input.MaxLeaseTTL with
        | error e => simp [ConvertAuthConfig, hd, hm, hp] at hok
        | ok d =>
          simp [ConvertAuthConfig, hd, hm, hp] at hok
          rw [← hok]
          exact ⟨rfl, rfl, rfl, rfl, rfl⟩
    · cases hp : ParseDuration input.DefaultLeaseTTL with
      | error e => simp [ConvertAuthConfig, hd, hp] at hok
      | ok d =>
        by_cases hm : input.MaxLeaseTTL = ""
        · simp [ConvertAuthConfig, hd, hm, hp] at hok
          rw [← hok]
          exact ⟨rfl, rfl, rfl, rfl, rfl⟩
        · cases hp2 : ParseDuration input.MaxLeaseTTL with
          | error e => simp [ConvertAuthConfig, hd, hm, hp, hp2] at hok
          | ok d2 =>
            simp [ConvertAuthConfig, hd, hm, hp, hp2] at hok
            rw [← hok]
            exact ⟨rfl, rfl, rfl, rfl, rfl⟩
  · intro input
    by_cases hd : input.DefaultLeaseTTL = ""
    · by_cases hm : input.MaxLeaseTTL = ""
      · simp [ConvertAuthConfig, hd, hm, exceptIsError]
      · cases hp : ParseDuration input.MaxLeaseTTL with
        | error e => simp [ConvertAuthConfig, hd, hm, hp, exceptIsError]
        | ok d => simp [ConvertAuthConfig, hd, hm, hp, exceptIsError]
    · cases hp : ParseDuration input.DefaultLeaseTTL with
      | error e => simp [ConvertAuthConfig, hd, hp, exceptIsError]
      | ok d =>
        by_cases hm : input.MaxLeaseTTL = ""
        · simp [ConvertAuthConfig, hd, hm, hp, exceptIsError]
        · cases hp2 : ParseDuration input.MaxLeaseTTL with
          | error e => simp [ConvertAuthConfig, hd, hm, hp, hp2, exceptIsError]
          | ok d2 => simp [ConvertAuthConfig, hd, hm, hp, hp2, exceptIsError]

/-- Witness for C8 at concrete inputs: the empty configuration, a
configuration with pass-through fields, and the invalid duration "xx". -/
theorem c8_convert_auth_config_witness :
    ConvertAuthConfig ⟨"", "", "plug", ["rk"], ["sk"], "unauth", ["hdr"]⟩ =
      .ok ⟨0, 0, "plug", ["rk"], ["sk"], "unauth", ["hdr"]⟩ ∧
    (⟨70, 0, "", [], [], "", []⟩ : AuthConfigOutput).PluginName =
      (⟨"1m10s", "", "", [], [], "", []⟩ : AuthConfigInput).PluginName ∧
    exceptIsError (ConvertAuthConfig ⟨"xx", "", "", [], [], "", []⟩) = true := by
  refine ⟨c8_convert_auth_config.2.2.2.1 ⟨"", "", "plug", ["rk"], ["sk"], "unauth", ["hdr"]⟩
      rfl rfl, ?_, ?_⟩
  · exact (c8_convert_auth_config.2.2.2.2.1 ⟨"1m10s", "", "", [], [], "", []⟩
      ⟨70, 0, "", [], [], "", []⟩ c8_convert_auth_config.2.1).1
  · exact (c8_convert_auth_config.2.2.2.2.2 ⟨"xx", "", "", [], [], "", []⟩).mpr
      (Or.inl ⟨by decide, by rfl⟩)

/-- A concrete auth-mount declaration used in examples. -/
def metaOpts : EnableAuthOptions := ⟨"approle", "", ⟨"", "", "", [], [], "", []⟩⟩

/-- C9 (code bug): neither handler's `walkFile` contains an
exclusion-marker check.  A file whose base name begins with an underscore
is read, parsed and passed to ensure like any other resource: the policy
file `_params` is parsed as a policy named "_params" and published with a
`PutPolicy` call, and the auth file `_meta` is passed to `EnableAuth` —
although the program's own usage text promises that files starting with an
underscore are not published. -/
theorem c9_underscore_files_are_applied :
    baseName "cfg/sys/policy/_params" = "_params" ∧
    (policyRun [.file "cfg/sys/policy/_params" (.parsed "{}")] []).calls =
      [VCall.putPolicy "_params" "{}"] ∧
    (policyRun [.file "cfg/sys/policy/_params" (.parsed "{}")] []).err = none ∧
    (authRun "cfg" [.file "cfg/sys/auth/_meta" (.parsed metaOpts)] []).calls =
      [VCall.enableAuth "_meta/" metaOpts] ∧
    (authRun "cfg" [.file "cfg/sys/auth/_meta" (.parsed metaOpts)] []).err = none := by
  exact ⟨rfl, rfl, rfl, rfl, rfl⟩

/-- C3: for both handlers, ensure first records the resource in the
configured set, then skips the create-or-update call exactly when an
equivalent live resource exists — verbatim text equality for policies,
equality of the canonicalized configuration for auth mounts — and
otherwise issues exactly that one mutating call. -/
theorem c3_ensure_contract :
    (∀ (σ : Type) (c : PolicyClient σ) (live cfg : List String) (st : σ) (p : SysPolicy),
      (EnsurePolicy c live cfg st p).cfg = cfg ++ [p.Name] ∧
      (∀ t, policyExists live p = true → c.getPolicy st p.Name = .ok t → t = p.Policy →
        (EnsurePolicy c live cfg st p).calls = [] ∧
        (EnsurePolicy c live cfg st p).err = none) ∧
      (policyExists live p = false →
        (EnsurePolicy c live cfg st p).calls = [VCall.putPolicy p.Name p.Policy]) ∧
      (∀ t, policyExists live p = true → c.getPolicy st p.Name = .ok t → t ≠ p.Policy →
        (EnsurePolicy c live cfg st p).calls = [VCall.putPolicy p.Name p.Policy])) ∧
    (∀ (σ : Type) (c : AuthClient σ) (live cfg : List (String × AuthMount)) (st : σ)
        (path : String) (opts : EnableAuthOptions) (out : AuthConfigOutput),
      ConvertAuthConfig opts.Config = .ok out →
      (ensureAuth c live cfg st path opts).cfg = insertKey path ⟨opts.Type', out⟩ cfg ∧
      (∀ liveAuth, lookupKey path live = some liveAuth → liveAuth.Config = out →
        (ensureAuth c live cfg st path opts).calls = [] ∧
        (ensureAuth c live cfg st path opts).err = none) ∧
      (lookupKey path live = none →
        (ensureAuth c live cfg st path opts).calls = [VCall.enableAuth path opts]) ∧
      (∀ liveAuth, lookupKey path live = some liveAuth → liveAuth.Config ≠ out →
        (ensureAuth c live cfg st path opts).calls = [VCall.enableAuth path opts])) := by
  constructor
  · intro σ c live cfg st p
    refine ⟨EnsurePolicy_cfg c live cfg st p, ?_, ?_, ?_⟩
    · intro t hex hget heq
      have happ : isPolicyApplied c live st p = (true, none) := by
        simp [isPolicyApplied, hex, hget, heq]
      simp [EnsurePolicy, happ]
    · intro hex
      have happ : isPolicyApplied c live st p = (false, none) := by
        simp [isPolicyApplied, hex]
      simp only [EnsurePolicy, happ]
      cases c.putPolicy st p.Name p.Policy <;> rfl
    · intro t hex hget hne
      have happ : isPolicyApplied c live st p = (false, none) := by
        have hb : (p.Policy == t) = false := by
          have h' : ¬(p.Policy = t) := fun hh => hne hh.symm
          simp [h']
        simp [isPolicyApplied, hex, hget, hb]
      simp only [EnsurePolicy, happ]
      cases c.putPolicy st p.Name p.Policy <;> rfl
  · intro σ c live cfg st path opts out hconv
    refine ⟨?_, ?_, ?_, ?_⟩
    · simp only [ensureAuth, hconv]
      try dsimp only
      cases hl : lookupKey path live with
      | none =>
        try dsimp only
        cases c.enableAuth st path opts <;> rfl
      | some liveAuth =>
        try dsimp only
        obtain ⟨oe, b⟩ := isConfigApplied opts.Config liveAuth.Config
        cases oe <;> cases b <;> try rfl
        all_goals cases c.enableAuth st path opts <;> rfl
    · intro liveAuth hl heq
      have happ : isConfigApplied opts.Config liveAuth.Config = (none, true) := by
        simp [isConfigApplied, hconv, heq]
      simp [ensureAuth, hconv, hl, happ]
    · intro hl
      simp only [ensureAuth, hconv, hl]
      try dsimp only
      cases c.enableAuth st path opts <;> rfl
    · intro liveAuth hl hne
      have happ : isConfigApplied opts.Config liveAuth.Config = (none, false) := by
        have hb : (out == liveAuth.Config) = false := by
          have h' : ¬(out = liveAuth.Config) := fun hh => hne hh.symm
          simp [h']
        simp [isConfigApplied, hconv, hb]
      simp only [ensureAuth, hconv, hl]
      try dsimp only
      rw [happ]
      try dsimp only
      cases c.enableAuth st path opts <;> rfl

/-- Witness for C3 at concrete inputs: an already-applied policy (no
call), a missing policy (one put), an applied auth mount (no call), and a
missing auth mount (one enable). -/
theorem c3_ensure_contract_witness :
    (EnsurePolicy honestPolicyClient ["ops"] [] [("ops", "p")] ⟨"ops", "p"⟩).calls = [] ∧
    (EnsurePolicy honestPolicyClient ["ops"] [] [("ops", "p")] ⟨"ops", "p"⟩).cfg = ["ops"] ∧
    (EnsurePolicy honestPolicyClient [] [] [] ⟨"ops", "p"⟩).calls =
      [VCall.putPolicy "ops" "p"] ∧
    (ensureAuth honestAuthClient [("app/", ⟨"approle", ⟨0, 0, "", [], [], "", []⟩⟩)] [] []
        "app/" metaOpts).calls = [] ∧
    (ensureAuth honestAuthClient [] [] [] "app/" metaOpts).calls =
      [VCall.enableAuth "app/" metaOpts] := by
  refine ⟨((c3_ensure_contract.1 PolicyMap honestPolicyClient ["ops"] [] [("ops", "p")]
      ⟨"ops", "p"⟩).2.1 "p" (by decide) rfl rfl).1, ?_, ?_, ?_, ?_⟩
  · exact (c3_ensure_contract.1 PolicyMap honestPolicyClient ["ops"] [] [("ops", "p")]
      ⟨"ops", "p"⟩).1
  · exact (c3_ensure_contract.1 PolicyMap honestPolicyClient [] [] []
      ⟨"ops", "p"⟩).2.2.1 (by decide)
  · exact ((c3_ensure_contract.2 AuthMap honestAuthClient
      [("app/", ⟨"approle", ⟨0, 0, "", [], [], "", []⟩⟩)] [] [] "app/" metaOpts
      ⟨0, 0, "", [], [], "", []⟩ rfl).2.1 ⟨"approle", ⟨0, 0, "", [], [], "", []⟩⟩
      rfl rfl).1
  · exact (c3_ensure_contract.2 AuthMap honestAuthClient [] [] [] "app/" metaOpts
      ⟨0, 0, "", [], [], "", []⟩ rfl).2.2.1 rfl

/-! ## Lemmas: handler ordering -/

/-- The `Order()` value the comparator reads for a path of the handler
map. -/
def hmOrder (hm : List (String × Int)) (p : String) : Int := (lookupKey p hm).getD 0

theorem handlerLess_false_iff (hm : List (String × Int)) (p q : String) :
    handlerLess hm q p = false ↔
    (hmOrder hm q = 0 ∨ (hmOrder hm p ≠ 0 ∧ hmOrder hm p ≤ hmOrder hm q)) := by
  unfold handlerLess hmOrder
  by_cases h1 : (lookupKey q hm).getD 0 = 0
  · simp [h1]
  · by_cases h2 : (lookupKey p hm).getD 0 = 0
    · simp [h1, h2]
      try omega
    · simp [h1, h2]
      try omega

theorem handlerLess_total (hm : List (String × Int)) (p q : String) :
    handlerLess hm q p = false ∨ handlerLess hm p q = false := by
  rw [handlerLess_false_iff, handlerLess_false_iff]
  omega

theorem handlerLess_asymm (hm : List (String × Int)) (p q : String)
    (h : handlerLess hm p q = true) : handlerLess hm q p = false := by
  rcases handlerLess_total hm p q with h' | h'
  · exact h'
  · exact absurd h (by simp [h'])

theorem handlerLess_le_trans (hm : List (String × Int)) (p q r : String)
    (h1 : handlerLess hm q p = false) (h2 : handlerLess hm r q = false) :
    handlerLess hm r p = false := by
  rw [handlerLess_false_iff] at h1 h2 ⊢
  omega

theorem insertSorted_perm (less : String → String → Bool) (x : String) (l : List String) :
    (insertSorted less x l).Perm (x :: l) := by
  induction l with
  | nil => exact List.Perm.refl _
  | cons y ys ih =>
    by_cases h : less y x = true
    · simp only [insertSorted, h, if_true]
      exact (ih.cons y).trans (List.Perm.swap x y ys)
    · rw [insertSorted, if_neg h]

theorem sortByLess_perm (less : String → String → Bool) (l : List String) :
    (sortByLess less l).Perm l := by
  induction l with
  | nil => exact List.Perm.refl _
  | cons x xs ih =>
    exact (insertSorted_perm less x (sortByLess less xs)).trans (ih.cons x)

theorem insertSorted_pairwise (hm : List (String × Int)) (x : String) (l : List String)
    (hp : l.Pairwise (fun a b => handlerLess hm b a = false)) :
    (insertSorted (handlerLess hm) x l).Pairwise
      (fun a b => handlerLess hm b a = false) := by
  induction l with
  | nil => simp [insertSorted]
  | cons y ys ih =>
    rcases List.pairwise_cons.mp hp with ⟨hy, hys⟩
    by_cases h : handlerLess hm y x = true
    · simp only [insertSorted, h, if_true]
      refine List.pairwise_cons.mpr ⟨?_, ih hys⟩
      intro a ha
      have hmem : a = x ∨ a ∈ ys := by
        have hme := (insertSorted_perm (handlerLess hm) x ys).mem_iff.mp ha
        simpa using hme
      rcases hmem with rfl | hmem
      · exact handlerLess_asymm hm y a h
      · exact hy a hmem
    · rw [insertSorted, if_neg h]
      have hyx : handlerLess hm y x = false := by
        cases hx : handlerLess hm y x with
        | false => rfl
        | true => exact absurd hx h
      refine List.pairwise_cons.mpr ⟨?_, hp⟩
      intro a ha
      rcases List.mem_cons.mp ha with rfl | hmem
      · exact hyx
      · exact handlerLess_le_trans hm x y a hyx (hy a hmem)

theorem sortByLess_pairwise (hm : List (String × Int)) (l : List String) :
    (sortByLess (handlerLess hm) l).Pairwise
      (fun a b => handlerLess hm b a = false) := by
  induction l with
  | nil => simp [sortByLess]
  | cons x xs ih => exact insertSorted_pairwise hm x _ ih

/-- C6: the dispatcher's first phase invokes handlers in `sortedPaths`
order; that order is a permutation of the handler-map keys in which every
zero-priority handler comes after every non-zero-priority handler and
non-zero priorities ascend; in particular, for priorities
{A:1, B:2, C:0} the dispatch order is A, B, C for every registration
order. -/
theorem c6_dispatch_order :
    (∀ (hm : List (String × Int)) (configDir : String) (treeEntries : List CWEntry),
      (walkConfigDir hm configDir treeEntries).phase1 = sortedPaths hm ∧
      (sortedPaths hm).Perm (hm.map Prod.fst) ∧
      (sortedPaths hm).Pairwise (fun a b =>
        hmOrder hm b = 0 ∨ (hmOrder hm a ≠ 0 ∧ hmOrder hm a ≤ hmOrder hm b))) ∧
    (∀ l ∈ [[("A", (1 : Int)), ("B", 2), ("C", 0)],
            [("A", 1), ("C", 0), ("B", 2)],
            [("B", 2), ("A", 1), ("C", 0)],
            [("B", 2), ("C", 0), ("A", 1)],
            [("C", 0), ("A", 1), ("B", 2)],
            [("C", 0), ("B", 2), ("A", 1)]],
      sortedPaths l = ["A", "B", "C"]) := by
  constructor
  · intro hm configDir treeEntries
    refine ⟨rfl, sortByLess_perm _ _, ?_⟩
    have hp := sortByLess_pairwise hm (hm.map Prod.fst)
    exact hp.imp (fun h => (handlerLess_false_iff hm _ _).mp h)
  · decide

/-- A handler map binding both a path and a strict descendant. -/
def c7HandlerMap : List (String × Int) := [("auth", 1), ("auth/ldap", 2)]

/-- The directory tree the fallback walk sees for that map. -/
def c7Tree : List CWEntry := [.dir "cfg", .dir "cfg/auth", .dir "cfg/auth/ldap"]

/-- C7 counterexample: with bindings for both "auth" and "auth/ldap", the
descendant's own handler IS dispatched — `walkConfigDir`'s first phase
calls `PutPoliciesFromDir` for every binding key, "auth/ldap" included —
so it is false that only the ancestor's handler is invoked for the
descendant subtree. -/
theorem c7_counterexample :
    "auth/ldap" ∈ (walkConfigDir c7HandlerMap "cfg" c7Tree).phase1 ∧
    (walkConfigDir c7HandlerMap "cfg" c7Tree).phase1 = ["auth", "auth/ldap"] ∧
    (walkConfigDir c7HandlerMap "cfg" c7Tree).fallback = [] := by
  exact ⟨by decide, by decide, by decide⟩

/-- C7 amended: the descendant directory is indeed skipped during the
fallback tree traversal — the fallback `walkFile` never dispatches a
directory for which `hasParentHandler` finds a strict-ancestor binding,
and `hasParentHandler` is true for "auth/ldap" whenever "auth" is bound —
but the descendant's own binding is still dispatched during the
binding-ordered first phase of `walkConfigDir`, so both handlers run. -/
theorem c7_amended_ancestor_precedence :
    (∀ (hm : List (String × Int)) (visited : List String) (configDir : String)
        (e : CWEntry) (relPath : String),
      cwWalkFile hm visited configDir e = .ok (some relPath) →
      hasParentHandler hm relPath = false ∧ (lookupKey relPath hm).isSome = true) ∧
    hasParentHandler c7HandlerMap "auth/ldap" = true ∧
    hasParentHandler [("auth", (1 : Int))] "auth/ldap" = true ∧
    (walkConfigDir [("auth", (1 : Int))] "cfg" c7Tree).fallback = [] ∧
    (walkConfigDir [("auth", (1 : Int))] "cfg" c7Tree).phase1 = ["auth"] ∧
    "auth/ldap" ∈ (walkConfigDir c7HandlerMap "cfg" c7Tree).phase1 := by
  refine ⟨?_, by decide, by decide, by decide, by decide, by decide⟩
  intro hm visited configDir e relPath h
  cases e with
  | missing p => simp [cwWalkFile] at h
  | file p => simp [cwWalkFile] at h
  | dir path =>
    simp only [cwWalkFile] at h
    by_cases hv : visited.any (fun v => v == path) = true
    · rw [if_pos hv] at h
      simp at h
    · rw [if_neg hv] at h
      cases hr : filepathRel configDir path with
      | error m =>
        rw [hr] at h
        simp at h
      | ok rel =>
        rw [hr] at h
        dsimp only at h
        by_cases hd : ((splitSlash rel).headD "" == ".") = true
        · rw [if_pos hd] at h
          simp at h
        · rw [if_neg hd] at h
          by_cases hp : hasParentHandler hm rel = true
          · rw [if_pos hp] at h
            simp at h
          · rw [if_neg hp] at h
            cases hl : lookupKey rel hm with
            | none =>
              rw [hl] at h
              simp at h
            | some v =>
              rw [hl] at h
              simp only [Except.ok.injEq, Option.some.injEq] at h
              subst h
              constructor
              · simpa using hp
              · simp [hl]

/-- Witness for C7's amended theorem at a concrete input: the fallback
dispatch of the directory "cfg/other" under the binding "other". -/
theorem c7_amended_ancestor_precedence_witness :
    hasParentHandler [("other", (0 : Int))] "other" = false ∧
    (lookupKey "other" [("other", (0 : Int))]).isSome = true := by
  exact c7_amended_ancestor_precedence.1 [("other", (0 : Int))] [] "cfg"
    (.dir "cfg/other") "other" rfl

/-! ## Lemmas: one run of the policy handler against the honest remote
service -/

theorem honest_getPolicy (st : PolicyMap) (n : String) :
    honestPolicyClient.getPolicy st n =
      (match lookupKey n st with
       | some text => .ok text
       | none => .error ("no policy named " ++ n)) := rfl

theorem honest_putPolicy (st : PolicyMap) (n t : String) :
    honestPolicyClient.putPolicy st n t = .ok (insertKey n t st) := rfl

/-- Entry-level effect of `insertKey`. -/
theorem mem_insertKey {α : Type} {pr : String × α} {k : String} {v : α}
    {m : List (String × α)} (h : pr ∈ insertKey k v m) : pr = (k, v) ∨ pr ∈ m := by
  induction m with
  | nil => simpa [insertKey] using h
  | cons hd tl ih =>
    obtain ⟨k₀, v₀⟩ := hd
    by_cases h0 : k₀ = k
    · simp only [insertKey] at h
      rw [if_pos (by simp [h0])] at h
      rcases List.mem_cons.mp h with h | h
      · exact Or.inl h
      · exact Or.inr (List.mem_cons.mpr (Or.inr h))
    · simp only [insertKey] at h
      rw [if_neg (by simp [h0])] at h
      rcases List.mem_cons.mp h with h | h
      · exact Or.inr (List.mem_cons.mpr (Or.inl h))
      · rcases ih h with h | h
        · exact Or.inl h
        · exact Or.inr (List.mem_cons.mpr (Or.inr h))

/-- `EnsurePolicy` against the honest remote service: never fails, records
the name, makes the policy's document live, and touches no other name. -/
theorem EnsurePolicy_honest (live : List String) (cfg : List String)
    (st : PolicyMap) (p : SysPolicy) :
    (EnsurePolicy honestPolicyClient live cfg st p).err = none ∧
    (EnsurePolicy honestPolicyClient live cfg st p).cfg = cfg ++ [p.Name] ∧
    lookupKey p.Name (EnsurePolicy honestPolicyClient live cfg st p).st = some p.Policy ∧
    (∀ n, n ≠ p.Name →
      lookupKey n (EnsurePolicy honestPolicyClient live cfg st p).st = lookupKey n st) ∧
    (∀ pr, pr ∈ (EnsurePolicy honestPolicyClient live cfg st p).st →
      pr ∈ st ∨ pr = (p.Name, p.Policy)) := by
  have hput : ∀ (b : Bool),
      isPolicyApplied honestPolicyClient live st p = (b, none) → b = false →
      EnsurePolicy honestPolicyClient live cfg st p =
        ⟨cfg ++ [p.Name], insertKey p.Name p.Policy st,
          [VCall.putPolicy p.Name p.Policy], none⟩ := by
    intro b happ hb
    subst hb
    simp [EnsurePolicy, happ, honest_putPolicy]
  have hsnd : (isPolicyApplied honestPolicyClient live st p).2 = none := by
    rw [isPolicyApplied]
    by_cases hex : policyExists live p = true
    · rw [if_neg (by simp [hex]), honest_getPolicy]
      cases lookupKey p.Name st <;> rfl
    · rw [if_pos (by simpa using hex)]
  by_cases hex : policyExists live p = true
  · cases hlk : lookupKey p.Name st with
    | none =>
      have happ : isPolicyApplied honestPolicyClient live st p = (false, none) := by
        rw [isPolicyApplied, if_neg (by simp [hex]), honest_getPolicy, hlk]
      rw [hput false happ rfl]
      refine ⟨rfl, rfl, lookupKey_insert_self _ _ _, ?_, ?_⟩
      · intro n hn
        exact lookupKey_insert_ne _ _ hn
      · intro pr hpr
        rcases mem_insertKey hpr with h | h
        · exact Or.inr h
        · exact Or.inl h
    | some t =>
      by_cases heq : p.Policy = t
      · have happ : isPolicyApplied honestPolicyClient live st p = (true, none) := by
          rw [isPolicyApplied, if_neg (by simp [hex]), honest_getPolicy, hlk]
          simp [heq]
        have hres : EnsurePolicy honestPolicyClient live cfg st p =
            ⟨cfg ++ [p.Name], st, [], none⟩ := by
          simp [EnsurePolicy, happ]
        rw [hres]
        refine ⟨rfl, rfl, ?_, fun n _ => rfl, fun pr hpr => Or.inl hpr⟩
        rw [hlk, heq]
      · have happ : isPolicyApplied honestPolicyClient live st p = (false, none) := by
          rw [isPolicyApplied, if_neg (by simp [hex]), honest_getPolicy, hlk]
          simp [heq]
        rw [hput false happ rfl]
        refine ⟨rfl, rfl, lookupKey_insert_self _ _ _, ?_, ?_⟩
        · intro n hn
          exact lookupKey_insert_ne _ _ hn
        · intro pr hpr
          rcases mem_insertKey hpr with h | h
          · exact Or.inr h
          · exact Or.inl h
  · have happ : isPolicyApplied honestPolicyClient live st p = (false, none) := by
      rw [isPolicyApplied, if_pos (by simpa using hex)]
    rw [hput false happ rfl]
    refine ⟨rfl, rfl, lookupKey_insert_self _ _ _, ?_, ?_⟩
    · intro n hn
      exact lookupKey_insert_ne _ _ hn
    · intro pr hpr
      rcases mem_insertKey hpr with h | h
      · exact Or.inr h
      · exact Or.inl h

/-- `EnsurePolicy` against the honest remote service is silent when the
policy is already live with the same document. -/
theorem EnsurePolicy_honest_silent (live : List String) (cfg : List String)
    (st : PolicyMap) (p : SysPolicy) (hex : p.Name ∈ live)
    (hlk : lookupKey p.Name st = some p.Policy) :
    EnsurePolicy honestPolicyClient live cfg st p =
      ⟨cfg ++ [p.Name], st, [], none⟩ := by
  have hex' : policyExists live p = true := by
    simp only [policyExists, List.any_eq_true]
    exact ⟨p.Name, hex, by simp⟩
  have happ : isPolicyApplied honestPolicyClient live st p = (true, none) := by
    rw [isPolicyApplied, if_neg (by simp [hex']), honest_getPolicy, hlk]
    simp
  simp [EnsurePolicy, happ]

theorem honest_deletePolicy (st : PolicyMap) (n : String) :
    honestPolicyClient.deletePolicy st n = .ok (eraseKey n st) := rfl

/-- `RemoveUndeclaredPolicies` against the honest remote service: it keeps
every configured name intact, only ever removes entries, removes every
live non-fixed unconfigured name, is silent when nothing is prunable, and
never fails. -/
theorem RemoveUndeclaredPolicies_honest (cfg : List String) (live : List String) :
    ∀ st : PolicyMap,
    (∀ n, cfg.any (fun c => n == c) = true →
      lookupKey n (RemoveUndeclaredPolicies honestPolicyClient cfg st live).st =
        lookupKey n st) ∧
    (∀ pr, pr ∈ (RemoveUndeclaredPolicies honestPolicyClient cfg st live).st → pr ∈ st) ∧
    (∀ n, n ∈ live → fixedPolicies n = false → cfg.any (fun c => n == c) = false →
      n ∉ ((RemoveUndeclaredPolicies honestPolicyClient cfg st live).st.map Prod.fst)) ∧
    ((∀ n, n ∈ live → fixedPolicies n = true ∨ cfg.any (fun c => n == c) = true) →
      (RemoveUndeclaredPolicies honestPolicyClient cfg st live).calls = []) := by
  induction live with
  | nil =>
    intro st
    exact ⟨fun n _ => rfl, fun pr hpr => hpr, fun n hn => absurd hn (by simp), fun _ => rfl⟩
  | cons liveName tl ih =>
    intro st
    by_cases hf : fixedPolicies liveName = true
    · have hres : RemoveUndeclaredPolicies honestPolicyClient cfg st (liveName :: tl) =
          RemoveUndeclaredPolicies honestPolicyClient cfg st tl := by
        rw [RemoveUndeclaredPolicies, if_pos hf]
      rw [hres]
      refine ⟨(ih st).1, (ih st).2.1, ?_, fun h => (ih st).2.2.2 (fun n hn => h n (by simp [hn]))⟩
      intro n hn hnf hcfg
      rcases List.mem_cons.mp hn with rfl | hn
      · exact absurd hf (by simp [hnf])
      · exact (ih st).2.2.1 n hn hnf hcfg
    · by_cases hc : cfg.any (fun configuredName => liveName == configuredName) = true
      · have hres : RemoveUndeclaredPolicies honestPolicyClient cfg st (liveName :: tl) =
            RemoveUndeclaredPolicies honestPolicyClient cfg st tl := by
          rw [RemoveUndeclaredPolicies, if_neg hf, if_pos hc]
        rw [hres]
        refine ⟨(ih st).1, (ih st).2.1, ?_,
          fun h => (ih st).2.2.2 (fun n hn => h n (by simp [hn]))⟩
        intro n hn hnf hcfg
        rcases List.mem_cons.mp hn with rfl | hn
        · exact absurd hc (by simp [hcfg])
        · exact (ih st).2.2.1 n hn hnf hcfg
      · have hres : RemoveUndeclaredPolicies honestPolicyClient cfg st (liveName :: tl) =
            ⟨(RemoveUndeclaredPolicies honestPolicyClient cfg (eraseKey liveName st) tl).st,
             VCall.deletePolicy liveName ::
               (RemoveUndeclaredPolicies honestPolicyClient cfg
                 (eraseKey liveName st) tl).calls,
             liveName ::
               (RemoveUndeclaredPolicies honestPolicyClient cfg
                 (eraseKey liveName st) tl).deleted,
             (RemoveUndeclaredPolicies honestPolicyClient cfg
               (eraseKey liveName st) tl).err⟩ := by
          rw [RemoveUndeclaredPolicies, if_neg hf, if_neg hc]
          rfl
        rw [hres]
        refine ⟨?_, ?_, ?_, ?_⟩
        · intro n hcn
          have hne : n ≠ liveName := by
            intro hh
            subst hh
            exact hc hcn
          rw [(ih (eraseKey liveName st)).1 n hcn]
          exact lookupKey_erase_ne st hne
        · intro pr hpr
          exact mem_of_mem_eraseKey ((ih (eraseKey liveName st)).2.1 pr hpr)
        · intro n hn hnf hcfg
          rcases List.mem_cons.mp hn with rfl | hn
          · intro hmem
            simp only [List.mem_map] at hmem
            obtain ⟨pr, hpr, hfst⟩ := hmem
            have hpr' := (ih (eraseKey n st)).2.1 pr hpr
            have : pr.1 ∈ (eraseKey n st).map Prod.fst := List.mem_map_of_mem Prod.fst hpr'
            rw [hfst] at this
            exact fst_not_mem_eraseKey n st this
          · exact (ih (eraseKey liveName st)).2.2.1 n hn hnf hcfg
        · intro h
          rcases h liveName (by simp) with h' | h'
          · exact absurd h' hf
          · exact absurd h' hc

/-- A policy walk entry that cannot abort the walk. -/
def goodPolicyEntry : PolicyEntry → Bool
  | .missing _ => true
  | .dir _ => true
  | .file _ (.parsed _) => true
  | _ => false

/-- A successful policy walk visits only good entries. -/
theorem policyWalk_err_none_good {σ : Type} (c : PolicyClient σ)
    (live : List String) (entries : List PolicyEntry) :
    ∀ (cfg : List String) (st : σ),
    (policyWalk c live entries cfg st).err = none →
    ∀ e ∈ entries, goodPolicyEntry e = true := by
  induction entries with
  | nil =>
    intro cfg st _ e he
    simp at he
  | cons e0 rest ih =>
    intro cfg st hok e he
    simp only [policyWalk] at hok
    rcases hF : policyWalkFile c live e0 cfg st with ⟨cfg', st', cs, err⟩
    rw [hF] at hok
    cases err with
    | some m => simp at hok
    | none =>
      dsimp only at hok
      rcases List.mem_cons.mp he with rfl | he
      · cases e with
        | missing _ => rfl
        | dir _ => rfl
        | walkErr p m => simp [policyWalkFile] at hF
        | file p content =>
          cases content with
          | parsed _ => rfl
          | readErr m => simp [policyWalkFile] at hF
          | badJson m => simp [policyWalkFile] at hF
      · exact ih cfg' st' hok e he

/-- Unfolding of `policyWalk` on a non-failing head entry. -/
theorem policyWalk_cons_none {σ : Type} (c : PolicyClient σ) (live : List String)
    (e : PolicyEntry) (rest : List PolicyEntry) (cfg : List String) (st : σ)
    (h : (policyWalkFile c live e cfg st).err = none) :
    policyWalk c live (e :: rest) cfg st =
      ⟨(policyWalk c live rest (policyWalkFile c live e cfg st).cfg
          (policyWalkFile c live e cfg st).st).cfg,
       (policyWalk c live rest (policyWalkFile c live e cfg st).cfg
          (policyWalkFile c live e cfg st).st).st,
       (policyWalkFile c live e cfg st).calls ++
         (policyWalk c live rest (policyWalkFile c live e cfg st).cfg
            (policyWalkFile c live e cfg st).st).calls,
       (policyWalk c live rest (policyWalkFile c live e cfg st).cfg
          (policyWalkFile c live e cfg st).st).err⟩ := by
  rcases hF : policyWalkFile c live e cfg st with ⟨cfg', st', cs, err⟩
  rw [hF] at h
  simp only [policyWalk]
  rw [hF]
  cases err with
  | some m => simp at h
  | none => rfl

/-- `walkFile` on a parsed policy file with the honest remote service is
exactly `EnsurePolicy`. -/
theorem policyWalkFile_honest_file (live cfg : List String) (st : PolicyMap)
    (path body : String) :
    policyWalkFile honestPolicyClient live (.file path (.parsed body)) cfg st =
      EnsurePolicy honestPolicyClient live cfg st ⟨baseName path, body⟩ := by
  have herr := (EnsurePolicy_honest live cfg st ⟨baseName path, body⟩).1
  simp only [policyWalkFile, herr]

/-- Invariants established by a successful first policy walk against the
honest remote service: it never fails, the configured list collects
exactly the declared names in order, every declared policy is live
afterwards with its declared body (given declared names are functional),
undeclared names are untouched, and every remote entry afterwards comes
from the initial state or from a declared policy. -/
theorem policyWalk_honest_run1 (live : List String) (entries : List PolicyEntry) :
    ∀ (cfg : List String) (st : PolicyMap),
    (∀ e ∈ entries, goodPolicyEntry e = true) →
    (∀ n b b', (n, b) ∈ entryPolicies entries → (n, b') ∈ entryPolicies entries → b = b') →
    (policyWalk honestPolicyClient live entries cfg st).err = none ∧
    (policyWalk honestPolicyClient live entries cfg st).cfg =
      cfg ++ (entryPolicies entries).map Prod.fst ∧
    (∀ n b, (n, b) ∈ entryPolicies entries →
      lookupKey n (policyWalk honestPolicyClient live entries cfg st).st = some b) ∧
    (∀ n, (∀ b, (n, b) ∉ entryPolicies entries) →
      lookupKey n (policyWalk honestPolicyClient live entries cfg st).st =
        lookupKey n st) ∧
    (∀ pr, pr ∈ (policyWalk honestPolicyClient live entries cfg st).st →
      pr ∈ st ∨ pr.1 ∈ (entryPolicies entries).map Prod.fst) := by
  induction entries with
  | nil =>
    intro cfg st _ _
    refine ⟨rfl, by simp [policyWalk, entryPolicies], ?_, fun n _ => rfl,
      fun pr hpr => Or.inl hpr⟩
    intro n b hb
    simp [entryPolicies] at hb
  | cons e rest ih =>
    intro cfg st hgood hfun
    cases e with
    | missing p =>
      rw [policyWalk_cons_none honestPolicyClient live (.missing p) rest cfg st rfl]
      have hrec := ih cfg st (fun e' he' => hgood e' (List.mem_cons.mpr (Or.inr he')))
        (fun n b b' hb hb' => hfun n b b' (by simp [entryPolicies, hb])
          (by simp [entryPolicies, hb']))
      simp only [entryPolicies]
      exact ⟨hrec.1, hrec.2.1, hrec.2.2.1, hrec.2.2.2.1, hrec.2.2.2.2⟩
    | dir p =>
      rw [policyWalk_cons_none honestPolicyClient live (.dir p) rest cfg st rfl]
      have hrec := ih cfg st (fun e' he' => hgood e' (List.mem_cons.mpr (Or.inr he')))
        (fun n b b' hb hb' => hfun n b b' (by simp [entryPolicies, hb])
          (by simp [entryPolicies, hb']))
      simp only [entryPolicies]
      exact ⟨hrec.1, hrec.2.1, hrec.2.2.1, hrec.2.2.2.1, hrec.2.2.2.2⟩
    | walkErr p m =>
      exact absurd (hgood _ (List.mem_cons.mpr (Or.inl rfl))) (by simp [goodPolicyEntry])
    | file path content =>
      cases content with
      | readErr m =>
        exact absurd (hgood _ (List.mem_cons.mpr (Or.inl rfl))) (by simp [goodPolicyEntry])
      | badJson m =>
        exact absurd (hgood _ (List.mem_cons.mpr (Or.inl rfl))) (by simp [goodPolicyEntry])
      | parsed body =>
        have hE := EnsurePolicy_honest live cfg st ⟨baseName path, body⟩
        have hwf : policyWalkFile honestPolicyClient live (.file path (.parsed body)) cfg st =
            EnsurePolicy honestPolicyClient live cfg st ⟨baseName path, body⟩ :=
          policyWalkFile_honest_file live cfg st path body
        rw [policyWalk_cons_none honestPolicyClient live (.file path (.parsed body)) rest
          cfg st (by rw [hwf]; exact hE.1), hwf, hE.2.1]
        have hdeq : entryPolicies (PolicyEntry.file path (.parsed body) :: rest) =
            (baseName path, body) :: entryPolicies rest := by
          simp [entryPolicies]
        have hfun' : ∀ n b b', (n, b) ∈ entryPolicies rest →
            (n, b') ∈ entryPolicies rest → b = b' := by
          intro n b b' hb hb'
          exact hfun n b b' (by rw [hdeq]; exact List.mem_cons.mpr (Or.inr hb))
            (by rw [hdeq]; exact List.mem_cons.mpr (Or.inr hb'))
        have hrec := ih (cfg ++ [baseName path])
          (EnsurePolicy honestPolicyClient live cfg st ⟨baseName path, body⟩).st
          (fun e' he' => hgood e' (List.mem_cons.mpr (Or.inr he'))) hfun'
        rw [hdeq]
        refine ⟨hrec.1, ?_, ?_, ?_, ?_⟩
        · rw [hrec.2.1]
          simp
        · intro n b hb
          rcases List.mem_cons.mp hb with hb | hb
          · rw [Prod.mk.injEq] at hb
            obtain ⟨hn1, hb1⟩ := hb
            by_cases hre : ∃ b₂, (n, b₂) ∈ entryPolicies rest
            · obtain ⟨b₂, hb₂⟩ := hre
              have hmem1 : (n, b₂) ∈
                  entryPolicies (PolicyEntry.file path (.parsed body) :: rest) := by
                rw [hdeq]
                exact List.mem_cons.mpr (Or.inr hb₂)
              have hmem2 : (n, b) ∈
                  entryPolicies (PolicyEntry.file path (.parsed body) :: rest) := by
                rw [hdeq, hn1, hb1]
                exact List.mem_cons.mpr (Or.inl rfl)
              have hbeq : b₂ = b := hfun n b₂ b hmem1 hmem2
              rw [← hbeq]
              exact hrec.2.2.1 n b₂ hb₂
            · push_neg at hre
              rw [hrec.2.2.2.1 n hre, hn1, hb1]
              exact hE.2.2.1
          · exact hrec.2.2.1 n b hb
        · intro n hn
          have hn0 : n ≠ baseName path := by
            intro hh
            subst hh
            exact hn body (List.mem_cons.mpr (Or.inl rfl))
          have hnr : ∀ b, (n, b) ∉ entryPolicies rest := by
            intro b hb
            exact hn b (List.mem_cons.mpr (Or.inr hb))
          rw [hrec.2.2.2.1 n hnr]
          exact hE.2.2.2.1 n hn0
        · intro pr hpr
          rcases hrec.2.2.2.2 pr hpr with h | h
          · rcases hE.2.2.2.2 pr h with h' | h'
            · exact Or.inl h'
            · right
              rw [h']
              simp
          · right
            simp only [List.map_cons, List.mem_cons]
            exact Or.inr h

/-- Second-run policy walk: when every declared policy is already live
with its declared body, the walk issues no call, leaves the remote state
unchanged, and still records every declared name. -/
theorem policyWalk_honest_silent (live : List String) (entries : List PolicyEntry) :
    ∀ (cfg : List String) (st : PolicyMap),
    (∀ e ∈ entries, goodPolicyEntry e = true) →
    (∀ n b, (n, b) ∈ entryPolicies entries → n ∈ live ∧ lookupKey n st = some b) →
    (policyWalk honestPolicyClient live entries cfg st).calls = [] ∧
    (policyWalk honestPolicyClient live entries cfg st).st = st ∧
    (policyWalk honestPolicyClient live entries cfg st).err = none ∧
    (policyWalk honestPolicyClient live entries cfg st).cfg =
      cfg ++ (entryPolicies entries).map Prod.fst := by
  induction entries with
  | nil =>
    intro cfg st _ _
    exact ⟨rfl, rfl, rfl, by simp [policyWalk, entryPolicies]⟩
  | cons e rest ih =>
    intro cfg st hgood hdecl
    cases e with
    | missing p =>
      rw [policyWalk_cons_none honestPolicyClient live (.missing p) rest cfg st rfl]
      have hrec := ih cfg st (fun e' he' => hgood e' (List.mem_cons.mpr (Or.inr he')))
        (fun n b hb => hdecl n b (by simp [entryPolicies, hb]))
      simp only [entryPolicies]
      exact ⟨by simp [policyWalkFile, hrec.1], hrec.2.1, hrec.2.2.1, hrec.2.2.2⟩
    | dir p =>
      rw [policyWalk_cons_none honestPolicyClient live (.dir p) rest cfg st rfl]
      have hrec := ih cfg st (fun e' he' => hgood e' (List.mem_cons.mpr (Or.inr he')))
        (fun n b hb => hdecl n b (by simp [entryPolicies, hb]))
      simp only [entryPolicies]
      exact ⟨by simp [policyWalkFile, hrec.1], hrec.2.1, hrec.2.2.1, hrec.2.2.2⟩
    | walkErr p m =>
      exact absurd (hgood _ (List.mem_cons.mpr (Or.inl rfl))) (by simp [goodPolicyEntry])
    | file path content =>
      cases content with
      | readErr m =>
        exact absurd (hgood _ (List.mem_cons.mpr (Or.inl rfl))) (by simp [goodPolicyEntry])
      | badJson m =>
        exact absurd (hgood _ (List.mem_cons.mpr (Or.inl rfl))) (by simp [goodPolicyEntry])
      | parsed body =>
        have hdeq : entryPolicies (PolicyEntry.file path (.parsed body) :: rest) =
            (baseName path, body) :: entryPolicies rest := by
          simp [entryPolicies]
        have h0 := hdecl (baseName path) body
          (by rw [hdeq]; exact List.mem_cons.mpr (Or.inl rfl))
        have hsil := EnsurePolicy_honest_silent live cfg st ⟨baseName path, body⟩ h0.1 h0.2
        have hwf : policyWalkFile honestPolicyClient live
            (.file path (.parsed body)) cfg st =
            ⟨cfg ++ [baseName path], st, [], none⟩ := by
          rw [policyWalkFile_honest_file, hsil]
        rw [policyWalk_cons_none honestPolicyClient live (.file path (.parsed body)) rest
          cfg st (by rw [hwf])]
        rw [hwf]
        have hrec := ih (cfg ++ [baseName path]) st
          (fun e' he' => hgood e' (List.mem_cons.mpr (Or.inr he')))
          (fun n b hb => hdecl n b (by rw [hdeq]; exact List.mem_cons.mpr (Or.inr hb)))
        rw [hdeq]
        refine ⟨by simp [hrec.1], hrec.2.1, hrec.2.2.1, ?_⟩
        rw [hrec.2.2.2]
        simp

/-- Idempotence of the policy handler against the honest remote service:
after one successful run, a second run over the same declared tree issues
no mutating call (declared base names must be functional — the
counterexample below shows why). -/
theorem policyRun_idempotent (entries : List PolicyEntry) (st0 : PolicyMap)
    (hfun : ∀ n b b', (n, b) ∈ entryPolicies entries →
      (n, b') ∈ entryPolicies entries → b = b')
    (h1 : (policyRun entries st0).err = none) :
    (policyRun entries (policyRun entries st0).st).calls = [] ∧
    (policyRun entries (policyRun entries st0).st).err = none := by
  have hw1 : (policyWalk honestPolicyClient (st0.map Prod.fst) entries [] st0).err = none := by
    cases hw : (policyWalk honestPolicyClient (st0.map Prod.fst) entries [] st0).err with
    | none => rfl
    | some m =>
      have hcontra : (policyRun entries st0).err = some m := by
        simp [policyRun, policyPutPoliciesFromDir, hw]
      rw [h1] at hcontra
      exact absurd hcontra (by simp)
  have hgood := policyWalk_err_none_good honestPolicyClient (st0.map Prod.fst)
    entries [] st0 hw1
  have hrun1 := policyWalk_honest_run1 (st0.map Prod.fst) entries [] st0 hgood hfun
  have hst1 : (policyRun entries st0).st =
      (RemoveUndeclaredPolicies honestPolicyClient
        (policyWalk honestPolicyClient (st0.map Prod.fst) entries [] st0).cfg
        (policyWalk honestPolicyClient (st0.map Prod.fst) entries [] st0).st
        (st0.map Prod.fst)).st := by
    simp [policyRun, policyPutPoliciesFromDir, hw1]
  have hP := RemoveUndeclaredPolicies_honest
    (policyWalk honestPolicyClient (st0.map Prod.fst) entries [] st0).cfg
    (st0.map Prod.fst)
    (policyWalk honestPolicyClient (st0.map Prod.fst) entries [] st0).st
  have hcfg1 : (policyWalk honestPolicyClient (st0.map Prod.fst) entries [] st0).cfg =
      (entryPolicies entries).map Prod.fst := by
    rw [hrun1.2.1]
    simp
  have hany : ∀ n b, (n, b) ∈ entryPolicies entries →
      (policyWalk honestPolicyClient (st0.map Prod.fst) entries [] st0).cfg.any
        (fun c => n == c) = true := by
    intro n b hb
    rw [hcfg1]
    simp only [List.any_eq_true]
    exact ⟨n, List.mem_map_of_mem Prod.fst hb, by simp⟩
  have hlook : ∀ n b, (n, b) ∈ entryPolicies entries →
      lookupKey n (policyRun entries st0).st = some b := by
    intro n b hb
    rw [hst1, hP.1 n (hany n b hb)]
    exact hrun1.2.2.1 n b hb
  have hdecl2 : ∀ n b, (n, b) ∈ entryPolicies entries →
      n ∈ (policyRun entries st0).st.map Prod.fst ∧
      lookupKey n (policyRun entries st0).st = some b := by
    intro n b hb
    exact ⟨mem_keys_of_lookupKey (hlook n b hb), hlook n b hb⟩
  have hw2 := policyWalk_honest_silent ((policyRun entries st0).st.map Prod.fst) entries
    [] (policyRun entries st0).st hgood hdecl2
  have hlive2 : ∀ n, n ∈ (policyRun entries st0).st.map Prod.fst →
      fixedPolicies n = true ∨
      (policyWalk honestPolicyClient ((policyRun entries st0).st.map Prod.fst) entries []
        (policyRun entries st0).st).cfg.any (fun c => n == c) = true := by
    intro n hn
    by_cases hf : fixedPolicies n = true
    · exact Or.inl hf
    · right
      have hcfg2 : (policyWalk honestPolicyClient
          ((policyRun entries st0).st.map Prod.fst) entries []
          (policyRun entries st0).st).cfg = (entryPolicies entries).map Prod.fst := by
        rw [hw2.2.2.2]
        simp
      rw [hcfg2]
      by_cases hm : n ∈ (entryPolicies entries).map Prod.fst
      · simp only [List.any_eq_true]
        exact ⟨n, hm, by simp⟩
      · exfalso
        simp only [List.mem_map] at hn
        obtain ⟨pr, hpr, hprfst⟩ := hn
        rw [hst1] at hpr
        have hpr1 := hP.2.1 pr hpr
        rcases hrun1.2.2.2.2 pr hpr1 with hpr0 | hprn
        · have hnl : n ∈ st0.map Prod.fst := by
            rw [← hprfst]
            exact List.mem_map_of_mem Prod.fst hpr0
          have hfn : fixedPolicies n = false := by
            cases hx : fixedPolicies n with
            | false => rfl
            | true => exact absurd hx hf
          have hcf : (policyWalk honestPolicyClient (st0.map Prod.fst) entries []
              st0).cfg.any (fun c => n == c) = false := by
            rw [hcfg1]
            cases hx : ((entryPolicies entries).map Prod.fst).any (fun c => n == c) with
            | false => rfl
            | true =>
              exfalso
              apply hm
              simp only [List.any_eq_true] at hx
              obtain ⟨c, hc, hcn⟩ := hx
              have : n = c := by simpa using hcn
              rw [this]
              exact hc
          have := hP.2.2.1 n hnl hfn hcf
          apply this
          rw [← hprfst]
          exact List.mem_map_of_mem Prod.fst hpr
        · apply hm
          rw [← hprfst]
          exact hprn
  have hP2 := RemoveUndeclaredPolicies_honest
    (policyWalk honestPolicyClient ((policyRun entries st0).st.map Prod.fst) entries []
      (policyRun entries st0).st).cfg
    ((policyRun entries st0).st.map Prod.fst)
    (policyWalk honestPolicyClient ((policyRun entries st0).st.map Prod.fst) entries []
      (policyRun entries st0).st).st
  constructor
  · show (policyPutPoliciesFromDir honestPolicyClient
      ((policyRun entries st0).st.map Prod.fst) entries (policyRun entries st0).st).calls = []
    simp only [policyPutPoliciesFromDir, hw2.2.2.1]
    rw [hw2.1, hP2.2.2.2 hlive2]
    rfl
  · show (policyPutPoliciesFromDir honestPolicyClient
      ((policyRun entries st0).st.map Prod.fst) entries (policyRun entries st0).st).err = none
    simp only [policyPutPoliciesFromDir, hw2.2.2.1]
    exact RemoveUndeclaredPolicies_err_none _ _ _ _

/-! ## Lemmas: one run of the auth handler against the honest remote
service -/

theorem exceptIsError_false_ok {ε α : Type} {x : Except ε α}
    (h : exceptIsError x = false) : ∃ v, x = .ok v := by
  cases x with
  | error e => simp [exceptIsError] at h
  | ok v => exact ⟨v, rfl⟩

theorem lookupKey_insert_isSome {α : Type} {q k : String} {v : α}
    {m : List (String × α)} (h : (lookupKey q (insertKey k v m)).isSome = true) :
    q = k ∨ (lookupKey q m).isSome = true := by
  by_cases hqk : q = k
  · exact Or.inl hqk
  · right
    rwa [lookupKey_insert_ne v m hqk] at h

/-- `ensureAuth` against the honest remote service under a convertible
declared configuration: never fails, records the converted mount, and
either installs the converted mount or — when the snapshot already showed
an equal canonical configuration at that path — leaves the state alone. -/
theorem ensureAuth_honest (live cfg : List (String × AuthMount)) (st : AuthMap)
    (path : String) (opts : EnableAuthOptions) (out : AuthConfigOutput)
    (hconv : ConvertAuthConfig opts.Config = .ok out) :
    (ensureAuth honestAuthClient live cfg st path opts).err = none ∧
    (ensureAuth honestAuthClient live cfg st path opts).cfg =
      insertKey path ⟨opts.Type', out⟩ cfg ∧
    ((ensureAuth honestAuthClient live cfg st path opts).st =
        insertKey path ⟨opts.Type', out⟩ st ∨
      ((ensureAuth honestAuthClient live cfg st path opts).st = st ∧
        ∃ liveAuth, lookupKey path live = some liveAuth ∧ liveAuth.Config = out)) := by
  have henable : honestAuthClient.enableAuth st path opts =
      .ok (insertKey path ⟨opts.Type', out⟩ st) := by
    show (match ConvertAuthConfig opts.Config with
      | .error e => .error e
      | .ok o => .ok (insertKey path ⟨opts.Type', o⟩ st)) =
        Except.ok (insertKey path ⟨opts.Type', out⟩ st)
    rw [hconv]
  cases hl : lookupKey path live with
  | none =>
    have hres : ensureAuth honestAuthClient live cfg st path opts =
        ⟨insertKey path ⟨opts.Type', out⟩ cfg, insertKey path ⟨opts.Type', out⟩ st,
          [VCall.enableAuth path opts], none⟩ := by
      simp [ensureAuth, hconv, hl, henable]
    rw [hres]
    exact ⟨rfl, rfl, Or.inl rfl⟩
  | some liveAuth =>
    by_cases heq : out = liveAuth.Config
    · have happ : isConfigApplied opts.Config liveAuth.Config = (none, true) := by
        simp [isConfigApplied, hconv, heq]
      have hres : ensureAuth honestAuthClient live cfg st path opts =
          ⟨insertKey path ⟨opts.Type', out⟩ cfg, st, [], none⟩ := by
        simp [ensureAuth, hconv, hl, happ]
      rw [hres]
      exact ⟨rfl, rfl, Or.inr ⟨rfl, liveAuth, rfl, heq.symm⟩⟩

    · have happ : isConfigApplied opts.Config liveAuth.Config = (none, false) := by
        have hb : (out == liveAuth.Config) = false := by simp [heq]
        simp [isConfigApplied, hconv, hb]
      have hres : ensureAuth honestAuthClient live cfg st path opts =
          ⟨insertKey path ⟨opts.Type', out⟩ cfg, insertKey path ⟨opts.Type', out⟩ st,
            [VCall.enableAuth path opts], none⟩ := by
        simp [ensureAuth, hconv, hl, happ, henable]
      rw [hres]
      exact ⟨rfl, rfl, Or.inl rfl⟩

/-- `ensureAuth` against the honest remote service is silent when the
snapshot already shows the declared canonical configuration. -/
theorem ensureAuth_honest_silent (live cfg : List (String × AuthMount)) (st : AuthMap)
    (path : String) (opts : EnableAuthOptions) (out : AuthConfigOutput)
    (liveAuth : AuthMount) (hconv : ConvertAuthConfig opts.Config = .ok out)
    (hl : lookupKey path live = some liveAuth) (heq : liveAuth.Config = out) :
    ensureAuth honestAuthClient live cfg st path opts =
      ⟨insertKey path ⟨opts.Type', out⟩ cfg, st, [], none⟩ := by
  have happ : isConfigApplied opts.Config liveAuth.Config = (none, true) := by
    simp [isConfigApplied, hconv, heq]
  simp [ensureAuth, hconv, hl, happ]

/-- When the declared configuration does not convert, `ensureAuth`
fails. -/
theorem ensureAuth_conv_error {σ : Type} (c : AuthClient σ)
    (live cfg : List (String × AuthMount)) (st : σ) (path : String)
    (opts : EnableAuthOptions) (e : String)
    (hconv : ConvertAuthConfig opts.Config = .error e) :
    (ensureAuth c live cfg st path opts).err = some e := by
  simp [ensureAuth, hconv]

/-- An auth walk entry that cannot abort the walk when the remote service
is honest. -/
def goodAuthEntry (docPath : String) : AuthEntry → Bool
  | .missing _ => true
  | .dir _ => true
  | .walkErr _ _ => false
  | .file path content =>
    match apiPath docPath path with
    | .error _ => false
    | .ok policyPath =>
      if !(strHasPrefix policyPath "sys/auth") then false
      else
        match content with
        | .parsed opts => !(exceptIsError (ConvertAuthConfig opts.Config))
        | _ => false

/-- Unfolding of `authWalk` on a non-failing head entry. -/
theorem authWalk_cons_none {σ : Type} (c : AuthClient σ) (docPath : String)
    (live : List (String × AuthMount)) (e : AuthEntry) (rest : List AuthEntry)
    (cfg : List (String × AuthMount)) (st : σ)
    (h : (authWalkFile c docPath live e cfg st).err = none) :
    authWalk c docPath live (e :: rest) cfg st =
      ⟨(authWalk c docPath live rest (authWalkFile c docPath live e cfg st).cfg
          (authWalkFile c docPath live e cfg st).st).cfg,
       (authWalk c docPath live rest (authWalkFile c docPath live e cfg st).cfg
          (authWalkFile c docPath live e cfg st).st).st,
       (authWalkFile c docPath live e cfg st).calls ++
         (authWalk c docPath live rest (authWalkFile c docPath live e cfg st).cfg
            (authWalkFile c docPath live e cfg st).st).calls,
       (authWalk c docPath live rest (authWalkFile c docPath live e cfg st).cfg
          (authWalkFile c docPath live e cfg st).st).err⟩ := by
  rcases hF : authWalkFile c docPath live e cfg st with ⟨cfg', st', cs, err⟩
  rw [hF] at h
  simp only [authWalk]
  rw [hF]
  cases err with
  | some m => simp at h
  | none => rfl

/-- `walkFile` on a good auth file with the honest remote service is
exactly `ensureAuth` at the derived mount path. -/
theorem authWalkFile_honest_file (docPath : String)
    (live cfg : List (String × AuthMount)) (st : AuthMap) (path policyPath : String)
    (opts : EnableAuthOptions) (out : AuthConfigOutput)
    (hap : apiPath docPath path = .ok policyPath)
    (hpre : strHasPrefix policyPath "sys/auth" = true)
    (hconv : ConvertAuthConfig opts.Config = .ok out) :
    authWalkFile honestAuthClient docPath live (.file path (.parsed opts)) cfg st =
      ensureAuth honestAuthClient live cfg st
        (strTrimPrefix policyPath "sys/auth/" ++ "/") opts := by
  have herr := (ensureAuth_honest live cfg st (strTrimPrefix policyPath "sys/auth/" ++ "/")
    opts out hconv).1
  simp only [authWalkFile, hap]
  rw [if_neg (by simp [hpre])]
  simp only [herr]

/-- A successful honest auth walk visits only good entries. -/
theorem authWalk_err_none_good (docPath : String) (live : List (String × AuthMount))
    (entries : List AuthEntry) :
    ∀ (cfg : List (String × AuthMount)) (st : AuthMap),
    (authWalk honestAuthClient docPath live entries cfg st).err = none →
    ∀ e ∈ entries, goodAuthEntry docPath e = true := by
  induction entries with
  | nil =>
    intro cfg st _ e he
    simp at he
  | cons e0 rest ih =>
    intro cfg st hok e he
    simp only [authWalk] at hok
    rcases hF : authWalkFile honestAuthClient docPath live e0 cfg st with ⟨cfg', st', cs, err⟩
    rw [hF] at hok
    cases err with
    | some m => simp at hok
    | none =>
      dsimp only at hok
      rcases List.mem_cons.mp he with rfl | he
      · cases e with
        | missing _ => rfl
        | dir _ => rfl
        | walkErr p m => simp [authWalkFile] at hF
        | file p content =>
          simp only [authWalkFile] at hF
          cases hap : apiPath docPath p with
          | error m =>
            rw [hap] at hF
            simp at hF
          | ok policyPath =>
            rw [hap] at hF
            dsimp only at hF
            by_cases hpre : strHasPrefix policyPath "sys/auth" = true
            · rw [if_neg (by simp [hpre])] at hF
              cases content with
              | readErr m => simp at hF
              | badJson m => simp at hF
              | parsed opts =>
                dsimp only at hF
                cases hconv : ConvertAuthConfig opts.Config with
                | error e2 =>
                  exfalso
                  have := ensureAuth_conv_error honestAuthClient live cfg st
                    (strTrimPrefix policyPath "sys/auth/" ++ "/") opts e2 hconv
                  rcases hEn : ensureAuth honestAuthClient live cfg st
                      (strTrimPrefix policyPath "sys/auth/" ++ "/") opts with ⟨cE, sE, csE, errE⟩
                  rw [hEn] at this hF
                  dsimp only at this
                  subst this
                  simp at hF
                | ok out =>
                  simp [goodAuthEntry, hap, hpre, exceptIsError, hconv]
            · rw [if_pos (by simpa using hpre)] at hF
              simp at hF
      · exact ih cfg' st' hok e he

/-- Invariants established by a successful first auth walk against the
honest remote service.  `D` is a superset of the declared mounts with
functional options, and the remote state is assumed to agree with the
`ListAuth` snapshot except at paths already carrying a declared converted
configuration — which holds initially because the snapshot is the
state. -/
theorem authWalk_honest_run1 (docPath : String) (live : List (String × AuthMount))
    (D : List (String × EnableAuthOptions)) (entries : List AuthEntry) :
    ∀ (cfg : List (String × AuthMount)) (st : AuthMap),
    (∀ e ∈ entries, goodAuthEntry docPath e = true) →
    (∀ pr ∈ entryAuths docPath entries, pr ∈ D) →
    (∀ q o o', (q, o) ∈ D → (q, o') ∈ D → o = o') →
    (∀ q, lookupKey q st = lookupKey q live ∨
      ∃ am o, lookupKey q st = some am ∧ (q, o) ∈ D ∧
        ConvertAuthConfig o.Config = .ok am.Config) →
    (authWalk honestAuthClient docPath live entries cfg st).err = none ∧
    (∀ q, (lookupKey q cfg).isSome = true →
      (lookupKey q (authWalk honestAuthClient docPath live entries cfg st).cfg).isSome
        = true) ∧
    (∀ q o, (q, o) ∈ entryAuths docPath entries →
      (lookupKey q (authWalk honestAuthClient docPath live entries cfg st).cfg).isSome
        = true) ∧
    (∀ q, (lookupKey q
        (authWalk honestAuthClient docPath live entries cfg st).cfg).isSome = true →
      (lookupKey q cfg).isSome = true ∨ ∃ o, (q, o) ∈ entryAuths docPath entries) ∧
    (∀ q o, (q, o) ∈ entryAuths docPath entries →
      ∃ am out,
        lookupKey q (authWalk honestAuthClient docPath live entries cfg st).st = some am ∧
        ConvertAuthConfig o.Config = .ok out ∧ am.Config = out) ∧
    (∀ q, (∀ o, (q, o) ∉ entryAuths docPath entries) →
      lookupKey q (authWalk honestAuthClient docPath live entries cfg st).st =
        lookupKey q st) ∧
    (∀ pr, pr ∈ (authWalk honestAuthClient docPath live entries cfg st).st →
      pr ∈ st ∨ ∃ o, (pr.1, o) ∈ entryAuths docPath entries) := by
  induction entries with
  | nil =>
    intro cfg st _ _ _ _
    refine ⟨rfl, fun q hq => hq, ?_, fun q hq => Or.inl hq, ?_, fun q _ => rfl,
      fun pr hpr => Or.inl hpr⟩
    · intro q o hq
      simp [entryAuths] at hq
    · intro q o hq
      simp [entryAuths] at hq
  | cons e rest ih =>
    intro cfg st hgood hsub hfunD hst
    have hgood' : ∀ e' ∈ rest, goodAuthEntry docPath e' = true :=
      fun e' he' => hgood e' (List.mem_cons.mpr (Or.inr he'))
    cases e with
    | missing p =>
      rw [authWalk_cons_none honestAuthClient docPath live (.missing p) rest cfg st rfl]
      have hdeq : entryAuths docPath (AuthEntry.missing p :: rest) =
          entryAuths docPath rest := by simp [entryAuths]
      have hrec := ih cfg st hgood' (fun pr hpr => hsub pr (by rw [hdeq]; exact hpr))
        hfunD hst
      rw [hdeq]
      exact hrec
    | dir p =>
      rw [authWalk_cons_none honestAuthClient docPath live (.dir p) rest cfg st rfl]
      have hdeq : entryAuths docPath (AuthEntry.dir p :: rest) =
          entryAuths docPath rest := by simp [entryAuths]
      have hrec := ih cfg st hgood' (fun pr hpr => hsub pr (by rw [hdeq]; exact hpr))
        hfunD hst
      rw [hdeq]
      exact hrec
    | walkErr p m =>
      exact absurd (hgood _ (List.mem_cons.mpr (Or.inl rfl))) (by simp [goodAuthEntry])
    | file path content =>
      have hg := hgood _ (List.mem_cons.mpr (Or.inl rfl))
      cases hap : apiPath docPath path with
      | error m =>
        exfalso
        cases content <;> simp [goodAuthEntry, hap] at hg
      | ok policyPath =>
        by_cases hpre : strHasPrefix policyPath "sys/auth" = true
        · cases content with
          | readErr m =>
            exfalso
            simp [goodAuthEntry, hap, hpre] at hg
          | badJson m =>
            exfalso
            simp [goodAuthEntry, hap, hpre] at hg
          | parsed opts =>
            have hconvE : exceptIsError (ConvertAuthConfig opts.Config) = false := by
              simpa [goodAuthEntry, hap, hpre] using hg
            obtain ⟨out, hconv⟩ := exceptIsError_false_ok hconvE
            have hdeq : entryAuths docPath (AuthEntry.file path (.parsed opts) :: rest) =
                (strTrimPrefix policyPath "sys/auth/" ++ "/", opts) ::
                  entryAuths docPath rest := by
              simp [entryAuths, hap, hpre]
            have hwf := authWalkFile_honest_file docPath live cfg st path policyPath
              opts out hap hpre hconv
            have hE := ensureAuth_honest live cfg st
              (strTrimPrefix policyPath "sys/auth/" ++ "/") opts out hconv
            rw [authWalk_cons_none honestAuthClient docPath live
              (.file path (.parsed opts)) rest cfg st (by rw [hwf]; exact hE.1), hwf]
            have hmem0 : (strTrimPrefix policyPath "sys/auth/" ++ "/", opts) ∈ D := by
              apply hsub
              rw [hdeq]
              exact List.mem_cons.mpr (Or.inl rfl)
            have hst1 : ∀ q, lookupKey q (ensureAuth honestAuthClient live cfg st
                (strTrimPrefix policyPath "sys/auth/" ++ "/") opts).st =
                  lookupKey q live ∨
                ∃ am o, lookupKey q (ensureAuth honestAuthClient live cfg st
                    (strTrimPrefix policyPath "sys/auth/" ++ "/") opts).st = some am ∧
                  (q, o) ∈ D ∧ ConvertAuthConfig o.Config = .ok am.Config := by
              intro q
              rcases hE.2.2 with hins | ⟨hskip, la, hlla, hlaC⟩
              · by_cases hq : q = strTrimPrefix policyPath "sys/auth/" ++ "/"
                · subst hq
                  right
                  refine ⟨⟨opts.Type', out⟩, opts, ?_, hmem0, by simpa using hconv⟩
                  rw [hins]
                  exact lookupKey_insert_self _ _ _
                · rw [hins, lookupKey_insert_ne _ _ hq]
                  exact hst q
              · rw [hskip]
                exact hst q
            have hrec := ih (ensureAuth honestAuthClient live cfg st
                (strTrimPrefix policyPath "sys/auth/" ++ "/") opts).cfg
              (ensureAuth honestAuthClient live cfg st
                (strTrimPrefix policyPath "sys/auth/" ++ "/") opts).st
              hgood'
              (fun pr hpr => hsub pr (by rw [hdeq]; exact List.mem_cons.mpr (Or.inr hpr)))
              hfunD hst1
            rw [hdeq]
            refine ⟨hrec.1, ?_, ?_, ?_, ?_, ?_, ?_⟩
            · intro q hq
              apply hrec.2.1
              rw [hE.2.1]
              by_cases hqq : q = strTrimPrefix policyPath "sys/auth/" ++ "/"
              · subst hqq
                rw [lookupKey_insert_self]
                rfl
              · rw [lookupKey_insert_ne _ _ hqq]
                exact hq
            · intro q o hq
              rcases List.mem_cons.mp hq with hq | hq
              · rw [Prod.mk.injEq] at hq
                apply hrec.2.1
                rw [hE.2.1, hq.1, lookupKey_insert_self]
                rfl
              · exact hrec.2.2.1 q o hq
            · intro q hq
              rcases hrec.2.2.2.1 q hq with hq' | ⟨o, ho⟩
              · rw [hE.2.1] at hq'
                rcases lookupKey_insert_isSome hq' with hq'' | hq''
                · right
                  refine ⟨opts, ?_⟩
                  rw [hq'']
                  exact List.mem_cons.mpr (Or.inl rfl)
                · exact Or.inl hq''
              · exact Or.inr ⟨o, List.mem_cons.mpr (Or.inr ho)⟩
            · intro q o hq
              rcases List.mem_cons.mp hq with hq | hq
              · rw [Prod.mk.injEq] at hq
                obtain ⟨hq1, hq2⟩ := hq
                by_cases hre : ∃ o₂, (strTrimPrefix policyPath "sys/auth/" ++ "/", o₂) ∈
                    entryAuths docPath rest
                · obtain ⟨o₂, ho₂⟩ := hre
                  have ho₂D : (strTrimPrefix policyPath "sys/auth/" ++ "/", o₂) ∈ D := by
                    apply hsub
                    rw [hdeq]
                    exact List.mem_cons.mpr (Or.inr ho₂)
                  have ho₂eq : o₂ = opts := hfunD _ o₂ opts ho₂D hmem0
                  subst ho₂eq
                  obtain ⟨am, out₂, ham, hconv₂, hamC⟩ := hrec.2.2.2.2.1 _ o₂ ho₂
                  rw [hq1, hq2]
                  exact ⟨am, out₂, ham, hconv₂, hamC⟩
                · push_neg at hre
                  have hlk := hrec.2.2.2.2.2.1 (strTrimPrefix policyPath "sys/auth/" ++ "/")
                    (fun o' ho' => hre o' ho')
                  rcases hE.2.2 with hins | ⟨hskip, la, hlla, hlaC⟩
                  · rw [hq1, hq2, hlk, hins, lookupKey_insert_self]
                    exact ⟨⟨opts.Type', out⟩, out, rfl, hconv, rfl⟩
                  · rw [hq1, hq2, hlk, hskip]
                    rcases hst (strTrimPrefix policyPath "sys/auth/" ++ "/") with h0 | h0
                    · rw [h0, hlla]
                      exact ⟨la, out, rfl, hconv, hlaC⟩
                    · obtain ⟨am, o', ham, ho'D, hconv'⟩ := h0
                      have ho'eq : o' = opts := hfunD _ o' opts ho'D hmem0
                      subst ho'eq
                      rw [hconv] at hconv'
                      have hamC : am.Config = out := by
                        injection hconv' with hh
                        exact hh.symm
                      exact ⟨am, out, ham, hconv, hamC⟩
              · exact hrec.2.2.2.2.1 q o hq
            · intro q hq
              have hq0 : q ≠ strTrimPrefix policyPath "sys/auth/" ++ "/" := by
                intro hh
                subst hh
                exact hq opts (List.mem_cons.mpr (Or.inl rfl))
              have hqr : ∀ o, (q, o) ∉ entryAuths docPath rest :=
                fun o ho => hq o (List.mem_cons.mpr (Or.inr ho))
              rw [hrec.2.2.2.2.2.1 q hqr]
              rcases hE.2.2 with hins | ⟨hskip, _, _, _⟩
              · rw [hins, lookupKey_insert_ne _ _ hq0]
              · rw [hskip]
            · intro pr hpr
              rcases hrec.2.2.2.2.2.2 pr hpr with h0 | ⟨o, ho⟩
              · rcases hE.2.2 with hins | ⟨hskip, _, _, _⟩
                · rw [hins] at h0
                  rcases mem_insertKey h0 with h1 | h1
                  · right
                    refine ⟨opts, ?_⟩
                    rw [h1]
                    exact List.mem_cons.mpr (Or.inl rfl)
                  · exact Or.inl h1
                · rw [hskip] at h0
                  exact Or.inl h0
              · exact Or.inr ⟨o, List.mem_cons.mpr (Or.inr ho)⟩
        · exfalso
          cases content <;> simp [goodAuthEntry, hap, hpre] at hg

theorem ensureAuth_cfg {σ : Type} (c : AuthClient σ)
    (live cfg : List (String × AuthMount)) (st : σ) (path : String)
    (opts : EnableAuthOptions) (out : AuthConfigOutput)
    (hconv : ConvertAuthConfig opts.Config = .ok out) :
    (ensureAuth c live cfg st path opts).cfg = insertKey path ⟨opts.Type', out⟩ cfg := by
  simp only [ensureAuth, hconv]
  try dsimp only
  cases hl : lookupKey path live with
  | none =>
    try dsimp only
    cases c.enableAuth st path opts <;> rfl
  | some liveAuth =>
    try dsimp only
    obtain ⟨oe, b⟩ := isConfigApplied opts.Config liveAuth.Config
    cases oe <;> cases b <;> try rfl
    all_goals cases c.enableAuth st path opts <;> rfl

/-- The configured-auth map only ever grows during the walk. -/
theorem ensureAuth_cfg_preserve {σ : Type} (c : AuthClient σ)
    (live cfg : List (String × AuthMount)) (st : σ) (path : String)
    (opts : EnableAuthOptions) (q : String)
    (hq : (lookupKey q cfg).isSome = true) :
    (lookupKey q (ensureAuth c live cfg st path opts).cfg).isSome = true := by
  cases hconv : ConvertAuthConfig opts.Config with
  | error e =>
    have : (ensureAuth c live cfg st path opts).cfg = cfg := by
      simp [ensureAuth, hconv]
    rw [this]
    exact hq
  | ok out =>
    rw [ensureAuth_cfg c live cfg st path opts out hconv]
    by_cases hqq : q = path
    · subst hqq
      rw [lookupKey_insert_self]
      rfl
    · rw [lookupKey_insert_ne _ _ hqq]
      exact hq

theorem authWalk_cfg_preserve (docPath : String) (live : List (String × AuthMount))
    (entries : List AuthEntry) :
    ∀ (cfg : List (String × AuthMount)) (st : AuthMap) (q : String),
    (lookupKey q cfg).isSome = true →
    (lookupKey q (authWalk honestAuthClient docPath live entries cfg st).cfg).isSome
      = true := by
  induction entries with
  | nil =>
    intro cfg st q hq
    exact hq
  | cons e rest ih =>
    intro cfg st q hq
    have hstep : (lookupKey q
        (authWalkFile honestAuthClient docPath live e cfg st).cfg).isSome = true := by
      cases e with
      | missing p => exact hq
      | dir p => exact hq
      | walkErr p m => exact hq
      | file path content =>
        simp only [authWalkFile]
        cases hap : apiPath docPath path with
        | error m => exact hq
        | ok policyPath =>
          dsimp only
          by_cases hpre : strHasPrefix policyPath "sys/auth" = true
          · rw [if_neg (by simp [hpre])]
            cases content with
            | readErr m => exact hq
            | badJson m => exact hq
            | parsed opts =>
              dsimp only
              have hE := ensureAuth_cfg_preserve honestAuthClient live cfg st
                (strTrimPrefix policyPath "sys/auth/" ++ "/") opts q hq
              cases (ensureAuth honestAuthClient live cfg st
                  (strTrimPrefix policyPath "sys/auth/" ++ "/") opts).err <;> exact hE
          · rw [if_pos (by simpa using hpre)]
            exact hq
    simp only [authWalk]
    rcases hF : authWalkFile honestAuthClient docPath live e cfg st with ⟨cfg', st', cs, err⟩
    rw [hF] at hstep
    cases err with
    | some m => exact hstep
    | none => exact ih cfg' st' q hstep

/-- Second-run auth walk: when every declared mount is already live with
its declared canonical configuration, the walk issues no call and leaves
the remote state unchanged, while still recording every declared mount. -/
theorem authWalk_honest_silent (docPath : String) (live : List (String × AuthMount))
    (entries : List AuthEntry) :
    ∀ (cfg : List (String × AuthMount)) (st : AuthMap),
    (∀ e ∈ entries, goodAuthEntry docPath e = true) →
    (∀ q o, (q, o) ∈ entryAuths docPath entries →
      ∃ out am, ConvertAuthConfig o.Config = .ok out ∧
        lookupKey q live = some am ∧ am.Config = out) →
    (authWalk honestAuthClient docPath live entries cfg st).calls = [] ∧
    (authWalk honestAuthClient docPath live entries cfg st).st = st ∧
    (authWalk honestAuthClient docPath live entries cfg st).err = none ∧
    (∀ q o, (q, o) ∈ entryAuths docPath entries →
      (lookupKey q (authWalk honestAuthClient docPath live entries cfg st).cfg).isSome
        = true) ∧
    (∀ q, (lookupKey q
        (authWalk honestAuthClient docPath live entries cfg st).cfg).isSome = true →
      (lookupKey q cfg).isSome = true ∨ ∃ o, (q, o) ∈ entryAuths docPath entries) := by
  induction entries with
  | nil =>
    intro cfg st _ _
    refine ⟨rfl, rfl, rfl, ?_, fun q hq => Or.inl hq⟩
    intro q o hq
    simp [entryAuths] at hq
  | cons e rest ih =>
    intro cfg st hgood hdecl
    have hgood' : ∀ e' ∈ rest, goodAuthEntry docPath e' = true :=
      fun e' he' => hgood e' (List.mem_cons.mpr (Or.inr he'))
    cases e with
    | missing p =>
      rw [authWalk_cons_none honestAuthClient docPath live (.missing p) rest cfg st rfl]
      have hdeq : entryAuths docPath (AuthEntry.missing p :: rest) =
          entryAuths docPath rest := by simp [entryAuths]
      have hrec := ih cfg st hgood'
        (fun q o hq => hdecl q o (by rw [hdeq]; exact hq))
      rw [hdeq]
      exact ⟨by simp [authWalkFile, hrec.1], hrec.2.1, hrec.2.2.1, hrec.2.2.2.1,
        hrec.2.2.2.2⟩
    | dir p =>
      rw [authWalk_cons_none honestAuthClient docPath live (.dir p) rest cfg st rfl]
      have hdeq : entryAuths docPath (AuthEntry.dir p :: rest) =
          entryAuths docPath rest := by simp [entryAuths]
      have hrec := ih cfg st hgood'
        (fun q o hq => hdecl q o (by rw [hdeq]; exact hq))
      rw [hdeq]
      exact ⟨by simp [authWalkFile, hrec.1], hrec.2.1, hrec.2.2.1, hrec.2.2.2.1,
        hrec.2.2.2.2⟩
    | walkErr p m =>
      exact absurd (hgood _ (List.mem_cons.mpr (Or.inl rfl))) (by simp [goodAuthEntry])
    | file path content =>
      have hg := hgood _ (List.mem_cons.mpr (Or.inl rfl))
      cases content with
      | readErr m =>
        exfalso
        cases hap : apiPath docPath path with
        | error m2 => simp [goodAuthEntry, hap] at hg
        | ok policyPath => by_cases hpre : strHasPrefix policyPath "sys/auth" = true <;>
            simp [goodAuthEntry, hap, hpre] at hg
      | badJson m =>
        exfalso
        cases hap : apiPath docPath path with
        | error m2 => simp [goodAuthEntry, hap] at hg
        | ok policyPath => by_cases hpre : strHasPrefix policyPath "sys/auth" = true <;>
            simp [goodAuthEntry, hap, hpre] at hg
      | parsed opts =>
        cases hap : apiPath docPath path with
        | error m2 =>
          exfalso
          simp [goodAuthEntry, hap] at hg
        | ok policyPath =>
          by_cases hpre : strHasPrefix policyPath "sys/auth" = true
          · have hdeq : entryAuths docPath (AuthEntry.file path (.parsed opts) :: rest) =
                (strTrimPrefix policyPath "sys/auth/" ++ "/", opts) ::
                  entryAuths docPath rest := by
              simp [entryAuths, hap, hpre]
            obtain ⟨out, am, hconv, hlam, hamC⟩ :=
              hdecl (strTrimPrefix policyPath "sys/auth/" ++ "/") opts
                (by rw [hdeq]; exact List.mem_cons.mpr (Or.inl rfl))
            have hsil := ensureAuth_honest_silent live cfg st
              (strTrimPrefix policyPath "sys/auth/" ++ "/") opts out am hconv hlam hamC
            have hwf : authWalkFile honestAuthClient docPath live
                (.file path (.parsed opts)) cfg st =
                ⟨insertKey (strTrimPrefix policyPath "sys/auth/" ++ "/")
                  ⟨opts.Type', out⟩ cfg, st, [], none⟩ := by
              rw [authWalkFile_honest_file docPath live cfg st path policyPath opts out
                hap hpre hconv, hsil]
            rw [authWalk_cons_none honestAuthClient docPath live
              (.file path (.parsed opts)) rest cfg st (by rw [hwf]), hwf]
            have hrec := ih (insertKey (strTrimPrefix policyPath "sys/auth/" ++ "/")
                ⟨opts.Type', out⟩ cfg) st hgood'
              (fun q o hq => hdecl q o (by rw [hdeq]; exact List.mem_cons.mpr (Or.inr hq)))
            rw [hdeq]
            refine ⟨by simp [hrec.1], hrec.2.1, hrec.2.2.1, ?_, ?_⟩
            · intro q o hq
              rcases List.mem_cons.mp hq with hq | hq
              · rw [Prod.mk.injEq] at hq
                -- the configured map keeps q: it was just inserted
                have hsome : (lookupKey q (insertKey
                    (strTrimPrefix policyPath "sys/auth/" ++ "/")
                    ⟨opts.Type', out⟩ cfg)).isSome = true := by
                  rw [hq.1, lookupKey_insert_self]
                  rfl
                -- and the rest-walk only grows the configured map
                have := hrec.2.2.2.2 q
                by_cases hfin : (lookupKey q (authWalk honestAuthClient docPath live rest
                    (insertKey (strTrimPrefix policyPath "sys/auth/" ++ "/")
                      ⟨opts.Type', out⟩ cfg) st).cfg).isSome = true
                · exact hfin
                · exact absurd hsome (by
                    intro hcontra
                    exact hfin (authWalk_cfg_preserve docPath live rest _ st q hcontra))
              · exact hrec.2.2.2.1 q o hq
            · intro q hq
              rcases hrec.2.2.2.2 q hq with hq' | ⟨o, ho⟩
              · rcases lookupKey_insert_isSome hq' with hq'' | hq''
                · right
                  refine ⟨opts, ?_⟩
                  rw [hq'']
                  exact List.mem_cons.mpr (Or.inl rfl)
                · exact Or.inl hq''
              · exact Or.inr ⟨o, List.mem_cons.mpr (Or.inr ho)⟩
          · exfalso
            simp [goodAuthEntry, hap, hpre] at hg

theorem honest_disableAuth (st : AuthMap) (q : String) :
    honestAuthClient.disableAuth st q = .ok (eraseKey q st) := rfl

/-- `DisableUnconfiguredAuths` against the honest remote service: it keeps
every configured path intact, only ever removes entries, removes every
live unconfigured non-"token" mount, is silent when nothing is prunable,
and never fails. -/
theorem DisableUnconfiguredAuths_honest (cfg : List (String × AuthMount))
    (live : List (String × AuthMount)) :
    ∀ st : AuthMap,
    (∀ q, (lookupKey q cfg).isSome = true →
      lookupKey q (DisableUnconfiguredAuths honestAuthClient cfg st live).1 =
        lookupKey q st) ∧
    (∀ pr, pr ∈ (DisableUnconfiguredAuths honestAuthClient cfg st live).1 → pr ∈ st) ∧
    (∀ q am, (q, am) ∈ live → am.Type' ≠ "token" → lookupKey q cfg = none →
      q ∉ (DisableUnconfiguredAuths honestAuthClient cfg st live).1.map Prod.fst) ∧
    ((∀ q am, (q, am) ∈ live → am.Type' = "token" ∨ (lookupKey q cfg).isSome = true) →
      (DisableUnconfiguredAuths honestAuthClient cfg st live).2.1 = []) ∧
    (DisableUnconfiguredAuths honestAuthClient cfg st live).2.2 = none := by
  induction live with
  | nil =>
    intro st
    exact ⟨fun q _ => rfl, fun pr hpr => hpr, fun q am hq => absurd hq (by simp),
      fun _ => rfl, rfl⟩
  | cons hd tl ih =>
    intro st
    obtain ⟨q0, am0⟩ := hd
    cases hl : lookupKey q0 cfg with
    | some v =>
      have hres : DisableUnconfiguredAuths honestAuthClient cfg st ((q0, am0) :: tl) =
          DisableUnconfiguredAuths honestAuthClient cfg st tl := by
        rw [DisableUnconfiguredAuths, hl]
      rw [hres]
      refine ⟨(ih st).1, (ih st).2.1, ?_, ?_, (ih st).2.2.2.2⟩
      · intro q am hq hnt hcq
        rcases List.mem_cons.mp hq with hq1 | hq1
        · rw [Prod.mk.injEq] at hq1
          rw [hq1.1] at hcq
          rw [hcq] at hl
          exact absurd hl (by simp)
        · exact (ih st).2.2.1 q am hq1 hnt hcq
      · intro h
        exact (ih st).2.2.2.1 (fun q am hq => h q am (List.mem_cons.mpr (Or.inr hq)))
    | none =>
      by_cases ht : am0.Type' = "token"
      · have hres : DisableUnconfiguredAuths honestAuthClient cfg st ((q0, am0) :: tl) =
            DisableUnconfiguredAuths honestAuthClient cfg st tl := by
          rw [DisableUnconfiguredAuths, hl, if_pos (by simp [ht])]
        rw [hres]
        refine ⟨(ih st).1, (ih st).2.1, ?_, ?_, (ih st).2.2.2.2⟩
        · intro q am hq hnt hcq
          rcases List.mem_cons.mp hq with hq1 | hq1
          · rw [Prod.mk.injEq] at hq1
            exact absurd (hq1.2 ▸ ht) hnt
          · exact (ih st).2.2.1 q am hq1 hnt hcq
        · intro h
          exact (ih st).2.2.2.1 (fun q am hq => h q am (List.mem_cons.mpr (Or.inr hq)))
      · have hres : DisableUnconfiguredAuths honestAuthClient cfg st ((q0, am0) :: tl) =
            ⟨(DisableUnconfiguredAuths honestAuthClient cfg (eraseKey q0 st) tl).1,
             VCall.disableAuth q0 ::
               (DisableUnconfiguredAuths honestAuthClient cfg (eraseKey q0 st) tl).2.1,
             (DisableUnconfiguredAuths honestAuthClient cfg (eraseKey q0 st) tl).2.2⟩ := by
          rw [DisableUnconfiguredAuths, hl, if_neg (by simp [ht]), honest_disableAuth]
        rw [hres]
        refine ⟨?_, ?_, ?_, ?_, (ih (eraseKey q0 st)).2.2.2.2⟩
        · intro q hcq
          have hne : q ≠ q0 := by
            intro hh
            subst hh
            rw [hl] at hcq
            exact absurd hcq (by simp)
          rw [(ih (eraseKey q0 st)).1 q hcq]
          exact lookupKey_erase_ne st hne
        · intro pr hpr
          exact mem_of_mem_eraseKey ((ih (eraseKey q0 st)).2.1 pr hpr)
        · intro q am hq hnt hcq
          rcases List.mem_cons.mp hq with hq1 | hq1
          · rw [Prod.mk.injEq] at hq1
            rw [hq1.1]
            intro hmem
            simp only [List.mem_map] at hmem
            obtain ⟨pr, hpr, hfst⟩ := hmem
            have hpr' := (ih (eraseKey q0 st)).2.1 pr hpr
            have hmem2 : pr.1 ∈ (eraseKey q0 st).map Prod.fst :=
              List.mem_map_of_mem Prod.fst hpr'
            rw [hfst] at hmem2
            exact fst_not_mem_eraseKey q0 st hmem2
          · exact (ih (eraseKey q0 st)).2.2.1 q am hq1 hnt hcq
        · intro h
          rcases h q0 am0 (List.mem_cons.mpr (Or.inl rfl)) with h' | h'
          · exact absurd h' ht
          · rw [hl] at h'
            exact absurd h' (by simp)

/-- Idempotence of the auth handler against the honest remote service:
after one successful run, a second run over the same declared tree issues
no mutating call (declared mount paths must be functional, which the
on-disk layout guarantees since each mount path comes from a distinct
file path). -/
theorem authRun_idempotent (docPath : String) (entries : List AuthEntry) (st0 : AuthMap)
    (hfun : ∀ q o o', (q, o) ∈ entryAuths docPath entries →
      (q, o') ∈ entryAuths docPath entries → o = o')
    (h1 : (authRun docPath entries st0).err = none) :
    (authRun docPath entries (authRun docPath entries st0).st).calls = [] ∧
    (authRun docPath entries (authRun docPath entries st0).st).err = none := by
  have hw1 : (authWalk honestAuthClient docPath st0 entries [] st0).err = none := by
    cases hw : (authWalk honestAuthClient docPath st0 entries [] st0).err with
    | none => rfl
    | some m =>
      have hcontra : (authRun docPath entries st0).err = some m := by
        simp [authRun, authPutPoliciesFromDir, hw]
      rw [h1] at hcontra
      exact absurd hcontra (by simp)
  have hgood := authWalk_err_none_good docPath st0 entries [] st0 hw1
  have hrun1 := authWalk_honest_run1 docPath st0 (entryAuths docPath entries) entries
    [] st0 hgood (fun pr hpr => hpr) hfun (fun q => Or.inl rfl)
  have hst1 : (authRun docPath entries st0).st =
      (DisableUnconfiguredAuths honestAuthClient
        (authWalk honestAuthClient docPath st0 entries [] st0).cfg
        (authWalk honestAuthClient docPath st0 entries [] st0).st st0).1 := by
    simp [authRun, authPutPoliciesFromDir, hw1]
  have hPA := DisableUnconfiguredAuths_honest
    (authWalk honestAuthClient docPath st0 entries [] st0).cfg st0
    (authWalk honestAuthClient docPath st0 entries [] st0).st
  have hdecl2 : ∀ q o, (q, o) ∈ entryAuths docPath entries →
      ∃ out am, ConvertAuthConfig o.Config = .ok out ∧
        lookupKey q (authRun docPath entries st0).st = some am ∧ am.Config = out := by
    intro q o hq
    obtain ⟨am, out, ham, hconv, hamC⟩ := hrun1.2.2.2.2.1 q o hq
    refine ⟨out, am, hconv, ?_, hamC⟩
    rw [hst1, hPA.1 q (hrun1.2.2.1 q o hq)]
    exact ham
  have hw2 := authWalk_honest_silent docPath (authRun docPath entries st0).st entries
    [] (authRun docPath entries st0).st hgood
    (fun q o hq => by
      obtain ⟨out, am, hconv, ham, hamC⟩ := hdecl2 q o hq
      exact ⟨out, am, hconv, ham, hamC⟩)
  have hlive2 : ∀ q am, (q, am) ∈ (authRun docPath entries st0).st →
      am.Type' = "token" ∨
      (lookupKey q (authWalk honestAuthClient docPath (authRun docPath entries st0).st
        entries [] (authRun docPath entries st0).st).cfg).isSome = true := by
    intro q am hq
    have hqw : (q, am) ∈ (authWalk honestAuthClient docPath st0 entries [] st0).st := by
      apply hPA.2.1
      rw [← hst1]
      exact hq
    rcases hrun1.2.2.2.2.2.2 (q, am) hqw with hq0 | ⟨o, ho⟩
    · by_cases ht : am.Type' = "token"
      · exact Or.inl ht
      · by_cases hdq : ∃ o, (q, o) ∈ entryAuths docPath entries
        · obtain ⟨o, ho⟩ := hdq
          exact Or.inr (hw2.2.2.2.1 q o ho)
        · exfalso
          push_neg at hdq
          have hnone : lookupKey q
              (authWalk honestAuthClient docPath st0 entries [] st0).cfg = none := by
            cases hx : lookupKey q
                (authWalk honestAuthClient docPath st0 entries [] st0).cfg with
            | none => rfl
            | some v =>
              exfalso
              rcases hrun1.2.2.2.1 q (by rw [hx]; rfl) with hc | ⟨o, ho⟩
              · simp [lookupKey] at hc
              · exact hdq o ho
          have := hPA.2.2.1 q am hq0 ht hnone
          apply this
          rw [← hst1]
          exact List.mem_map_of_mem Prod.fst hq
    · exact Or.inr (hw2.2.2.2.1 q o ho)
  have hPA2 := DisableUnconfiguredAuths_honest
    (authWalk honestAuthClient docPath (authRun docPath entries st0).st entries []
      (authRun docPath entries st0).st).cfg
    (authRun docPath entries st0).st
    (authWalk honestAuthClient docPath (authRun docPath entries st0).st entries []
      (authRun docPath entries st0).st).st
  constructor
  · show (authPutPoliciesFromDir honestAuthClient docPath (authRun docPath entries st0).st
      entries (authRun docPath entries st0).st).calls = []
    simp only [authPutPoliciesFromDir, hw2.2.2.1]
    rw [hw2.1, hPA2.2.2.2.1 hlive2]
    rfl
  · show (authPutPoliciesFromDir honestAuthClient docPath (authRun docPath entries st0).st
      entries (authRun docPath entries st0).st).err = none
    simp only [authPutPoliciesFromDir, hw2.2.2.1]
    exact hPA2.2.2.2.2

/-- Two declared policy files sharing the base name "ops" with different
bodies. -/
def c2Entries : List PolicyEntry :=
  [.dir "cfg/sys/policy",
   .file "cfg/sys/policy/a/ops" (.parsed "p1"),
   .file "cfg/sys/policy/b/ops" (.parsed "p2")]

/-- C2 counterexample: the policy name is the file's base name, so two
files in different subdirectories declare the same policy "ops" with
different bodies.  The first run from an empty live state succeeds, the
declared tree and the remote state are then left untouched, yet the
second run issues two `PutPolicy` calls — each file finds the other
file's body live and re-puts its own — so the second run is not free of
mutating remote calls. -/
theorem c2_counterexample :
    (policyRun c2Entries []).err = none ∧
    (policyRun c2Entries (policyRun c2Entries []).st).calls =
      [VCall.putPolicy "ops" "p1", VCall.putPolicy "ops" "p2"] ∧
    (policyRun c2Entries (policyRun c2Entries []).st).calls ≠ [] := by
  refine ⟨rfl, rfl, ?_⟩
  intro h
  rw [show (policyRun c2Entries (policyRun c2Entries []).st).calls =
    [VCall.putPolicy "ops" "p1", VCall.putPolicy "ops" "p2"] from rfl] at h
  simp at h

/-- C2 amended: after one successful `PutPoliciesFromDir` run against the
honest remote service, a second run over the unchanged declared tree and
the state the first run produced issues zero mutating remote calls —
provided no two declared policy files share a base name with different
bodies, and no two declared auth files map to the same mount path with
different options (the counterexample above shows the restriction is
necessary for policies; for auth mounts distinct files always yield
distinct mount paths on disk). -/
theorem c2_amended_idempotence :
    (∀ (entries : List PolicyEntry) (st0 : PolicyMap),
      (∀ n b b', (n, b) ∈ entryPolicies entries →
        (n, b') ∈ entryPolicies entries → b = b') →
      (policyRun entries st0).err = none →
      (policyRun entries (policyRun entries st0).st).calls = [] ∧
      (policyRun entries (policyRun entries st0).st).err = none) ∧
    (∀ (docPath : String) (entries : List AuthEntry) (st0 : AuthMap),
      (∀ q o o', (q, o) ∈ entryAuths docPath entries →
        (q, o') ∈ entryAuths docPath entries → o = o') →
      (authRun docPath entries st0).err = none →
      (authRun docPath entries (authRun docPath entries st0).st).calls = [] ∧
      (authRun docPath entries (authRun docPath entries st0).st).err = none) := by
  exact ⟨fun entries st0 hfun h1 => policyRun_idempotent entries st0 hfun h1,
    fun docPath entries st0 hfun h1 => authRun_idempotent docPath entries st0 hfun h1⟩

/-- Witness for C2's amended theorem at concrete inputs: a one-policy
tree over a live state with a prunable policy, and a one-mount auth tree
over a live state with a token mount and a stale mount. -/
theorem c2_amended_idempotence_witness :
    (policyRun [.file "cfg/sys/policy/ops" (.parsed "p")]
      (policyRun [.file "cfg/sys/policy/ops" (.parsed "p")]
        [("legacy", "x")]).st).calls = [] ∧
    (authRun "cfg" [.file "cfg/sys/auth/app" (.parsed metaOpts)]
      (authRun "cfg" [.file "cfg/sys/auth/app" (.parsed metaOpts)]
        [("token/", tokenMount)]).st).calls = [] := by
  constructor
  · refine (c2_amended_idempotence.1 [.file "cfg/sys/policy/ops" (.parsed "p")]
      [("legacy", "x")] ?_ rfl).1
    intro n b b' hb hb'
    rw [show entryPolicies [PolicyEntry.file "cfg/sys/policy/ops" (.parsed "p")] =
      [("ops", "p")] from rfl] at hb hb'
    simp at hb hb'
    rw [hb.2, hb'.2]
  · refine (c2_amended_idempotence.2 "cfg" [.file "cfg/sys/auth/app" (.parsed metaOpts)]
      [("token/", tokenMount)] ?_ rfl).1
    intro q o o' ho ho'
    rw [show entryAuths "cfg" [AuthEntry.file "cfg/sys/auth/app" (.parsed metaOpts)] =
      [("app/", metaOpts)] from rfl] at ho ho'
    simp at ho ho'
    rw [ho.2, ho'.2]
